import Mathlib

/-!
# helm-update-checker: version comparator, index resolver, manifest extractors

A shallow embedding of `cmd/helm-update-checker` (Go).  Go strings are
modelled as lists of characters; every separator the program looks for
(`.`, `-`, `/`, the digits) is ASCII, so splitting a byte string and splitting
the corresponding character list agree.  Fallible functions return `Option`,
`none` standing for a non-nil `error`.
-/

namespace HelmUpdateChecker

/-- A Go string. -/
abbrev Str := List Char

/-! ## Library routines used by the version comparator -/

/-- Width of the Go `int` type on the platforms the tool is built for. -/
def intSize : Nat := 64

/-- Value of a decimal digit byte, as in the `ch -= '0'; if ch > 9` test of
`strconv.Atoi`. -/
def digitVal (c : Char) : Option Nat :=
  if '0' ≤ c ∧ c ≤ '9' then some (c.toNat - '0'.toNat) else none

/-- The digit loop of `strconv.Atoi`: `n = n*10 + int(ch)` for each byte, with a
syntax error at the first byte that is not a decimal digit. -/
def parseDigits : Str → Nat → Option Nat
  | [], n => some n
  | c :: cs, n =>
    match digitVal c with
    | none => none
    | some d => parseDigits cs (n * 10 + d)

/-- A model of `strconv.Atoi(s)`: an optional leading `+` or `-`, then a
non-empty run of decimal digits; the signed value has to fit in `int`. -/
def atoi (s : Str) : Option Int :=
  match s with
  | [] => none
  | c :: cs =>
    let neg : Bool := decide (c = '-')
    let ds : Str := if c = '-' ∨ c = '+' then cs else c :: cs
    match ds with
    | [] => none
    | _ :: _ =>
      match parseDigits ds 0 with
      | none => none
      | some n =>
        if neg then
          if n ≤ 2 ^ (intSize - 1) then some (-(n : Int)) else none
        else
          if n < 2 ^ (intSize - 1) then some (n : Int) else none

/-- A model of `strings.Cut`-style search used by `genSplit`: the text before
the first occurrence of `sep` and the text after it, or `none` when `sep` does
not occur. -/
def cutAt (sep : Char) : Str → Option (Str × Str)
  | [] => none
  | c :: cs =>
    if c = sep then some ([], cs)
    else
      match cutAt sep cs with
      | none => none
      | some (h, t) => some (c :: h, t)

/-- A model of `strings.SplitN(s, sep, n)` for a one-byte separator and
`n ≥ 0`: at most `n` pieces, the last one being the unsplit remainder. -/
def splitN (sep : Char) : Str → Nat → List Str
  | _, 0 => []
  | s, 1 => [s]
  | s, n + 2 =>
    match cutAt sep s with
    | none => [s]
    | some (h, t) => h :: splitN sep t (n + 1)

/-! ## Version comparator (`main.go`) -/

/-- The function `parseVersion` of `main.go`: split on `.` into at most three
pieces, require exactly three, and convert each with `strconv.Atoi`. -/
def parseVersion (v : Str) : Option (Int × Int × Int) :=
  match splitN '.' v 3 with
  | [p0, p1, p2] =>
    match atoi p0 with
    | none => none
    | some major =>
      match atoi p1 with
      | none => none
      | some minor =>
        match atoi p2 with
        | none => none
        | some patch => some (major, minor, patch)
  | _ => none

/-- The function `compareVersions` of `main.go`. -/
def compareVersions (a b : Str) : Option Int :=
  match parseVersion a with
  | none => none
  | some (aMajor, aMinor, aPatch) =>
    match parseVersion b with
    | none => none
    | some (bMajor, bMinor, bPatch) =>
      if aMajor > bMajor ∨ (aMajor = bMajor ∧ aMinor > bMinor)
          ∨ (aMajor = bMajor ∧ aMinor = bMinor ∧ aPatch > bPatch) then
        some 1
      else if bMajor > aMajor ∨ (bMajor = aMajor ∧ bMinor > aMinor)
          ∨ (bMajor = aMajor ∧ bMinor = aMinor ∧ bPatch > aPatch) then
        some (-1)
      else
        some 0

/-! ## Go maps -/

/-- A Go `map[K]V`, kept as an association list without repeated keys. -/
abbrev GoMap (κ ν : Type) := List (κ × ν)

/-- Reading `m[k]` with the comma-ok form: `none` when the key is absent. -/
def mapGet {κ ν : Type} [DecidableEq κ] : GoMap κ ν → κ → Option ν
  | [], _ => none
  | (k', v) :: rest, k => if k' = k then some v else mapGet rest k

/-- The assignment `m[k] = v`: an existing key is overwritten, a new one is
added. -/
def mapSet {κ ν : Type} [DecidableEq κ] : GoMap κ ν → κ → ν → GoMap κ ν
  | [], k, v => [(k, v)]
  | (k', v') :: rest, k, v =>
    if k' = k then (k, v) :: rest else (k', v') :: mapSet rest k v

/-- The keys of a Go map. -/
def mapKeys {κ ν : Type} (m : GoMap κ ν) : List κ := m.map Prod.fst

/-! ## `sort.Slice` -/

/-- The inner loop of `insertionSort_func` in package `sort`:
`for j := i; j > a && data.Less(j, j-1); j-- { data.Swap(j, j-1) }`.
The second argument is `data[a:j]` read from index `j-1` down to `a`, and `x`
is `data[j]`; the result is `data[a:i+1]` read from index `i` down to `a`.
`less` may update the state `σ` captured by the closure. -/
def insertLoop {α σ : Type} (less : σ → α → α → Bool × σ) (x : α) :
    List α → σ → List α × σ
  | [], s => ([x], s)
  | p :: ps, s =>
    match less s x p with
    | (true, s') =>
      match insertLoop less x ps s' with
      | (r, s2) => (p :: r, s2)
    | (false, s') => (x :: p :: ps, s')

/-- The outer loop of `insertionSort_func`: `for i := a + 1; i < b; i++`.  The
first list is the processed prefix read backwards, the second one is
`data[i:b]`. -/
def insertionSortLoop {α σ : Type} (less : σ → α → α → Bool × σ) :
    List α → List α → σ → List α × σ
  | pre, [], s => (pre.reverse, s)
  | pre, x :: rest, s =>
    match insertLoop less x pre s with
    | (pre', s') => insertionSortLoop less pre' rest s'

/-- The function `insertionSort_func(data, 0, len(data))`. -/
def insertionSort {α σ : Type} (less : σ → α → α → Bool × σ) :
    List α → σ → List α × σ
  | [], s => ([], s)
  | x :: rest, s => insertionSortLoop less [x] rest s

/-- A model of `sort.Slice(x, less)`.  `sort.Slice` calls `pdqsort_func`, whose
first step (`if length <= maxInsertion`, with `maxInsertion = 12`) hands every
slice of at most 12 elements to `insertionSort_func`.  What `pdqsort_func` does
with a longer slice (pivot choice, partitioning, heap sort) is the parameter
`sortLarge`: given the comparator, the slice and the state before the call, it
yields the slice and the state after the call. -/
def sortSlice {α σ : Type}
    (sortLarge : (σ → α → α → Bool × σ) → List α → σ → List α × σ)
    (less : σ → α → α → Bool × σ) (x : List α) (s : σ) : List α × σ :=
  if x.length ≤ 12 then insertionSort less x s else sortLarge less x s

/-! ## Repository index resolver (`main.go`) -/

/-- The decoded `entries` of an index document: for each chart name the
`version` field of each listed release, in document order. -/
abbrev IndexEntries := GoMap Str (List Str)

/-- The type of the parameter `sortLarge` of `sortSlice` for slices of version
strings sorted with the captured variable `err` as state. -/
abbrev VersionSort := (Bool → Str → Str → Bool × Bool) → List Str → Bool → List Str × Bool

/-- The closure handed to `sort.Slice` in `getRepositoryLatestChartVersions`.
The state is the captured variable `err` (`true` for a non-nil error): every
call assigns it afresh from `compareVersions`. -/
def versionLess (_err : Bool) (vi vj : Str) : Bool × Bool :=
  match compareVersions vi vj with
  | none => (false, true)
  | some c => (decide (c < 0), false)

/-- The loop `for name, entry := range v.Entries` of
`getRepositoryLatestChartVersions` (lines 140-165), started with the map
`versions` built so far.  Go ranges over a map in an unspecified order; the
entries are visited here in list order, which changes neither whether the call
fails nor the map it returns.  `sortLarge` is the parameter of `sortSlice`. -/
def latestLoop (sortLarge : VersionSort) :
    IndexEntries → GoMap Str Str → Option (GoMap Str Str)
  | [], versions => some versions
  | (name, entry) :: rest, versions =>
    let entryVersions := entry.filter (fun v => !decide ('-' ∈ v))
    match entryVersions with
    | [] => latestLoop sortLarge rest versions
    | _ :: _ =>
      match sortSlice sortLarge versionLess entryVersions false with
      | (_, true) => none
      | (sorted, false) =>
        match sorted.getLast? with
        | none => none
        | some latest => latestLoop sortLarge rest (mapSet versions name latest)

/-- The function `getRepositoryLatestChartVersions` of `main.go`.  Lines
116-138 (joining the URL, the GET request, the status check and the YAML
decoding) are the parameter `fetchIndex`, which yields the decoded entries or
fails; `sortLarge` is the parameter of `sortSlice`. -/
def getRepositoryLatestChartVersions (sortLarge : VersionSort)
    (fetchIndex : Str → Option IndexEntries) (repositoryURL : Str) :
    Option (GoMap Str Str) :=
  match fetchIndex repositoryURL with
  | none => none
  | some entries => latestLoop sortLarge entries []

/-! ## Scanner registry (`main.go`) -/

/-- The record `chart` of `main.go`. -/
structure chart where
  path : Str
  repository : Str
  name : Str
  version : Str
deriving DecidableEq, Repr

/-- The manifest extractors defined in the package. -/
inductive Reader where
  | readHelmSubcharts
  | readHelmfileCharts
  | readSkaffoldCharts
  | readDevSpaceCharts
deriving DecidableEq, Repr

/-- The package variable `chartReaders` of `main.go`. -/
def chartReaders : GoMap Str Reader :=
  [("Chart.yaml".toList, Reader.readHelmSubcharts),
   ("helmfile.yaml".toList, Reader.readHelmfileCharts),
   ("skaffold.yaml".toList, Reader.readSkaffoldCharts)]

/-- The branch taken by `getCharts` for one directory entry that is not a
directory (line 44): the extractor registered under the entry's name. -/
def dispatch (entryName : Str) : Option Reader :=
  mapGet chartReaders entryName

/-! ## helmfile extractor (`helmfile.go`) -/

/-- An element of `v.Repositories`. -/
structure HelmfileRepository where
  Name : Str
  URL : Str
deriving DecidableEq, Repr

/-- An element of `v.Releases`. -/
structure HelmfileRelease where
  Chart : Str
  Version : Str
deriving DecidableEq, Repr

/-- The variable `v` of `readHelmfileCharts`, declared once before the decoding
loop. -/
structure HelmfileValue where
  Repositories : List HelmfileRepository
  Releases : List HelmfileRelease
deriving DecidableEq, Repr

/-- What one YAML document of a helmfile assigns: `some l` when the top-level
key is present (a null value giving the empty list), `none` when the document
does not have the key. -/
structure HelmfileDocument where
  repositories : Option (List HelmfileRepository)
  releases : Option (List HelmfileRelease)
deriving DecidableEq, Repr

/-- The effect of `decoder.Decode(&v)` on `v` for a document that decodes:
`yaml.v3` assigns the struct fields whose keys occur in the document and leaves
every other field as it was. -/
def decodeInto (v : HelmfileValue) (d : HelmfileDocument) : HelmfileValue :=
  { Repositories := d.repositories.getD v.Repositories
    Releases := d.releases.getD v.Releases }

/-- Lines 47-50: the alias table built from `v.Repositories`. -/
def aliasTable (rs : List HelmfileRepository) : GoMap Str Str :=
  rs.foldl (fun m r => mapSet m r.Name r.URL) []

/-- Lines 53-68: the loop over `v.Releases`, appending to `charts`. -/
def releaseCharts (repositories : GoMap Str Str) :
    List HelmfileRelease → List chart → List chart
  | [], charts => charts
  | release :: rest, charts =>
    match cutAt '/' release.Chart with
    | none => releaseCharts repositories rest charts
    | some (repositoryName, chartName) =>
      match mapGet repositories repositoryName with
      | none => releaseCharts repositories rest charts
      | some repositoryURL =>
        releaseCharts repositories rest
          (charts ++ [{ path := [], repository := repositoryURL,
                        name := chartName, version := release.Version }])

/-- The decoding loop of `readHelmfileCharts` (lines 39-69).  The first
argument is what successive `Decode` calls meet: `some d` for a document that
decodes, `none` for one that does not, the end of the list for `io.EOF`. -/
def helmfileLoop : List (Option HelmfileDocument) → HelmfileValue → List chart →
    Option (List chart)
  | [], _, charts => some charts
  | none :: _, _, _ => none
  | some d :: rest, v, _ =>
    let v' := decodeInto v d
    let repositories := aliasTable v'.Repositories
    helmfileLoop rest v' (releaseCharts repositories v'.Releases [])

/-- The function `readHelmfileCharts` of `helmfile.go`, from the creation of
the decoder on (lines 36-70); its argument is the sequence of documents in the
text left by the template-stripping step. -/
def readHelmfileCharts (documents : List (Option HelmfileDocument)) :
    Option (List chart) :=
  helmfileLoop documents { Repositories := [], Releases := [] } []

/-! ## Notions the specification refers to -/

/-- The numeric triple (major, minor, patch) with the lexicographic order on
integers. -/
def tripleKey (t : Int × Int × Int) : Int ×ₗ Int ×ₗ Int :=
  toLex (t.1, toLex (t.2.1, t.2.2))

/-- The value "less / equal / greater" (-1, 0, 1) of the lexicographic
comparison of two numeric triples. -/
def lexCompare (x y : Int × Int × Int) : Int :=
  if tripleKey x < tripleKey y then -1 else if tripleKey x = tripleKey y then 0 else 1

/-- The numeric value of a run of decimal digits, most significant digit
first. -/
def decimalValue (p : Str) : Nat :=
  Nat.ofDigits 10 (p.reverse.map (fun c => c.toNat - 48))

/-- A non-empty run of decimal digits. -/
def isDigitRun (p : Str) : Bool :=
  !p.isEmpty && p.all Char.isDigit

/-- The specification's "valid non-negative integer": a non-empty run of
decimal digits whose value is within the integer range. -/
def isNonNegLiteral (p : Str) : Bool :=
  isDigitRun p && decide (decimalValue p < 2 ^ 63)

/-- The specification's reading of `parseVersion`: the string splits on `.`
into exactly three parts, each a valid non-negative integer, and the result is
their numeric values. -/
def parseVersionSpec (s : Str) : Option (Int × Int × Int) :=
  match s.splitOn '.' with
  | [p0, p1, p2] =>
    if isNonNegLiteral p0 && isNonNegLiteral p1 && isNonNegLiteral p2 then
      some ((decimalValue p0 : Int), (decimalValue p1 : Int), (decimalValue p2 : Int))
    else none
  | _ => none

/-- A signed decimal integer within the `int` range: an optional `+` or `-`
followed by a non-empty run of decimal digits. -/
def isIntLiteral (p : Str) : Bool :=
  if p.head? = some '-' then
    isDigitRun p.tail && decide (decimalValue p.tail ≤ 2 ^ 63)
  else if p.head? = some '+' then
    isDigitRun p.tail && decide (decimalValue p.tail < 2 ^ 63)
  else
    isDigitRun p && decide (decimalValue p < 2 ^ 63)

/-- The signed value of an integer literal. -/
def intLiteralValue (p : Str) : Int :=
  if p.head? = some '-' then -(decimalValue p.tail : Int)
  else if p.head? = some '+' then (decimalValue p.tail : Int)
  else (decimalValue p : Int)

/-- The specification's reading of `parseVersion` with "valid non-negative
integer" replaced by "valid signed integer". -/
def parseVersionSigned (s : Str) : Option (Int × Int × Int) :=
  match s.splitOn '.' with
  | [p0, p1, p2] =>
    if isIntLiteral p0 && isIntLiteral p1 && isIntLiteral p2 then
      some (intLiteralValue p0, intLiteralValue p1, intLiteralValue p2)
    else none
  | _ => none

/-- The place of a version string in the numeric triple order; strings that
do not parse are given the triple (0, 0, 0). -/
def verKey (v : Str) : Int ×ₗ Int ×ₗ Int :=
  match parseVersion v with
  | some t => tripleKey t
  | none => tripleKey (0, 0, 0)

/-- The version strings of an index entry that contain no hyphen, in document
order. -/
def hyphenFree (entry : List Str) : List Str :=
  entry.filter (fun v => !decide ('-' ∈ v))

/-- The documented behaviour of `sort.Slice` on a slice of more than 12 version
strings that all parse, sorted with the closure of
`getRepositoryLatestChartVersions`: the captured `err` is nil after the call,
and the slice is a permutation of what it was in which no string compares
greater than a later one. -/
def SortsVersions (sortLarge : VersionSort) : Prop :=
  ∀ l : List Str, 12 < l.length → (∀ v ∈ l, (parseVersion v).isSome = true) →
    (sortLarge versionLess l false).2 = false ∧
    (sortLarge versionLess l false).1.Perm l ∧
    (sortLarge versionLess l false).1.Pairwise
      (fun a b => ∃ c : Int, compareVersions a b = some c ∧ c ≤ 0)

/-- The most recent declaration of a property among the documents of a source:
the value given by the last document that has the key, if any. -/
def lastDeclared {β : Type} (f : HelmfileDocument → Option β) :
    List HelmfileDocument → Option β
  | [] => none
  | d :: rest =>
    match lastDeclared f rest with
    | some x => some x
    | none => f d

/-! ## Example inputs taken from the specification -/

/-- The index `{"foo": [1.0.0, 1.1.0, 1.2.0-rc1]}`. -/
def fooIndex : IndexEntries :=
  [("foo".toList, ["1.0.0".toList, "1.1.0".toList, "1.2.0-rc1".toList])]

/-- An index with the chart `foo` above and a chart `bar` whose only version
is a pre-release. -/
def fooBarIndex : IndexEntries :=
  [("foo".toList, ["1.0.0".toList, "1.1.0".toList, "1.2.0-rc1".toList]),
   ("bar".toList, ["2.0.0-beta".toList])]

/-- An index whose chart `foo` lists 13 versions, two of them ("2.0.0" and
"02.0.0") with the greatest triple. -/
def thirteenIndex : IndexEntries :=
  [("foo".toList,
    ["2.0.0".toList, "02.0.0".toList, "1.0.0".toList, "1.1.0".toList, "1.2.0".toList,
     "1.3.0".toList, "1.4.0".toList, "1.5.0".toList, "1.6.0".toList, "1.7.0".toList,
     "1.8.0".toList, "1.9.0".toList, "1.10.0".toList])]

/-- The repository alias `stable`. -/
def stableRepository : HelmfileRepository :=
  { Name := "stable".toList, URL := "https://charts.example.com".toList }

/-- The release `stable/nginx`. -/
def nginxRelease : HelmfileRelease :=
  { Chart := "stable/nginx".toList, Version := "1.0.0".toList }

/-- A document declaring the alias `stable` and the release `stable/nginx`. -/
def aliasAndReleaseDocument : HelmfileDocument :=
  { repositories := some [stableRepository], releases := some [nginxRelease] }

/-- The release `stable/nginx` at another version. -/
def nginxRelease2 : HelmfileRelease :=
  { Chart := "stable/nginx".toList, Version := "2.0.0".toList }

/-- A document declaring no repositories but the release `stable/nginx`. -/
def releaseOnlyDocument : HelmfileDocument :=
  { repositories := none, releases := some [nginxRelease2] }

/-- A document with neither a `repositories` nor a `releases` key. -/
def otherKeysDocument : HelmfileDocument :=
  { repositories := none, releases := none }

/-- The chart reference for `stable/nginx` resolved through the alias
`stable`. -/
def nginxChart : chart :=
  { path := [], repository := "https://charts.example.com".toList,
    name := "nginx".toList, version := "1.0.0".toList }

/-- The chart reference for the second `stable/nginx` release resolved through
the alias `stable`. -/
def nginxChart2 : chart :=
  { path := [], repository := "https://charts.example.com".toList,
    name := "nginx".toList, version := "2.0.0".toList }

/-! ## Chart.yaml extractor (`helm.go`) -/

/-- An element of `v.Dependencies` in `readHelmSubcharts`. -/
structure HelmDependency where
  Name : Str
  Repository : Str
  Version : Str
deriving DecidableEq, Repr

/-- A model of `strings.HasPrefix(s, p)`:
`len(s) >= len(p) && s[:len(p)] == p`. -/
def stringsHasPrefix (s p : Str) : Bool :=
  decide (p.length ≤ s.length) && decide (s.take p.length = p)

/-- Lines 24-33 of `helm.go`: the loop over `v.Dependencies`, appending to
`charts`. -/
def subchartLoop : List HelmDependency → List chart → List chart
  | [], charts => charts
  | dependency :: rest, charts =>
    if stringsHasPrefix dependency.Repository "http".toList then
      subchartLoop rest
        (charts ++ [{ path := [], repository := dependency.Repository,
                      name := dependency.Name, version := dependency.Version }])
    else subchartLoop rest charts

/-- The function `readHelmSubcharts` of `helm.go`.  The argument is the outcome
of the single `Decode` call: `none` when it fails, otherwise the decoded
`dependencies` list (empty when the key is absent). -/
def readHelmSubcharts (document : Option (List HelmDependency)) : Option (List chart) :=
  match document with
  | none => none
  | some dependencies => some (subchartLoop dependencies [])

/-! ## skaffold extractor (`skaffold.go`) -/

/-- An element of a `releases` list of `readSkaffoldCharts`. -/
structure SkaffoldRelease where
  Repo : Str
  RemoteChart : Str
  Version : Str
deriving DecidableEq, Repr

/-- The variable `v` of `readSkaffoldCharts`, declared once before the decoding
loop: `v.Manifests.Helm.Releases` and `v.Deploy.Helm.Releases`. -/
structure SkaffoldValue where
  Manifests : List SkaffoldRelease
  Deploy : List SkaffoldRelease
deriving DecidableEq, Repr

/-- What one YAML document of a skaffold file assigns: `some l` when the
document has a `releases` list under `manifests.helm` (resp. `deploy.helm`),
`none` when it does not reach that key. -/
structure SkaffoldDocument where
  manifests : Option (List SkaffoldRelease)
  deploy : Option (List SkaffoldRelease)
deriving DecidableEq, Repr

/-- The effect of `decoder.Decode(&v)` on `v` for a skaffold document that
decodes: only the lists the document reaches are assigned. -/
def skaffoldDecodeInto (v : SkaffoldValue) (d : SkaffoldDocument) : SkaffoldValue :=
  { Manifests := d.manifests.getD v.Manifests
    Deploy := d.deploy.getD v.Deploy }

/-- Each of the two loops of lines 36-53 of `skaffold.go`, over one `releases`
list, appending to `charts`. -/
def skaffoldReleaseLoop : List SkaffoldRelease → List chart → List chart
  | [], charts => charts
  | release :: rest, charts =>
    if release.RemoteChart.length > 0 then
      skaffoldReleaseLoop rest
        (charts ++ [{ path := [], repository := release.Repo,
                      name := release.RemoteChart, version := release.Version }])
    else skaffoldReleaseLoop rest charts

/-- The decoding loop of `readSkaffoldCharts` (lines 30-54); the first argument
is what successive `Decode` calls meet, as for `helmfileLoop`. -/
def skaffoldLoop : List (Option SkaffoldDocument) → SkaffoldValue → List chart →
    Option (List chart)
  | [], _, charts => some charts
  | none :: _, _, _ => none
  | some d :: rest, v, charts =>
    let v' := skaffoldDecodeInto v d
    skaffoldLoop rest v'
      (skaffoldReleaseLoop v'.Manifests (skaffoldReleaseLoop v'.Deploy charts))

/-- The function `readSkaffoldCharts` of `skaffold.go`. -/
def readSkaffoldCharts (documents : List (Option SkaffoldDocument)) :
    Option (List chart) :=
  skaffoldLoop documents { Manifests := [], Deploy := [] } []

/-! ## devspace extractor (`devspace.go`) -/

/-- The field `Helm.Chart` of a deployment in `readDevSpaceCharts`. -/
structure DevSpaceChart where
  Name : Str
  Repo : Str
  Version : Str
deriving DecidableEq, Repr

/-- Lines 28-36 of `devspace.go`: the loop over the map `v.Deployments`
(visited in list order), appending to `charts`. -/
def devSpaceLoop : GoMap Str DevSpaceChart → List chart → List chart
  | [], charts => charts
  | (_, deployment) :: rest, charts =>
    if deployment.Repo.length > 0 ∧ deployment.Version.length > 0 then
      devSpaceLoop rest
        (charts ++ [{ path := [], repository := deployment.Repo,
                      name := deployment.Name, version := deployment.Version }])
    else devSpaceLoop rest charts

/-- The function `readDevSpaceCharts` of `devspace.go`.  The argument is the
outcome of the single `Decode` call: `none` when it fails, otherwise the
decoded `deployments` map. -/
def readDevSpaceCharts (document : Option (GoMap Str DevSpaceChart)) :
    Option (List chart) :=
  match document with
  | none => none
  | some deployments => some (devSpaceLoop deployments [])

/-! ## Notions the specification refers to: extractors -/

/-- The chart reference made from a dependency: repository, name and version
unchanged, no path yet. -/
def dependencyChart (d : HelmDependency) : chart :=
  { path := [], repository := d.Repository, name := d.Name, version := d.Version }

/-- The repository value begins with an HTTP(S) scheme. -/
def beginsWithHttpScheme (r : Str) : Prop :=
  "http://".toList <+: r ∨ "https://".toList <+: r

/-- The chart reference made from a skaffold release: (repo, remoteChart,
version). -/
def skaffoldChart (r : SkaffoldRelease) : chart :=
  { path := [], repository := r.Repo, name := r.RemoteChart, version := r.Version }

/-- The releases of a list that have a non-empty `remoteChart`, as chart
references. -/
def skaffoldKept (rs : List SkaffoldRelease) : List chart :=
  (rs.filter (fun r => decide (r.RemoteChart ≠ []))).map skaffoldChart

/-- The chart reference made from a devspace chart descriptor. -/
def devSpaceChartRef (d : DevSpaceChart) : chart :=
  { path := [], repository := d.Repo, name := d.Name, version := d.Version }

/-- The devspace deployments with a non-empty repository and a non-empty
version, as chart references. -/
def devSpaceKept (deployments : GoMap Str DevSpaceChart) : List chart :=
  (deployments.filter (fun p => decide (p.2.Repo ≠ [] ∧ p.2.Version ≠ []))).map
    (fun p => devSpaceChartRef p.2)

/-- The most recent assignment of a field among the documents met so far: the
value given by the last document that assigns it, if any. -/
def lastAssigned {δ β : Type} (f : δ → Option β) : List δ → Option β
  | [] => none
  | d :: rest =>
    match lastAssigned f rest with
    | some x => some x
    | none => f d

/-- The references appended by `readSkaffoldCharts` when it has met the
documents `pre`: the kept releases of the deploy list, then those of the
manifests list, each list being the one most recently assigned. -/
def skaffoldAfter (pre : List SkaffoldDocument) : List chart :=
  skaffoldKept ((lastAssigned (fun d => d.deploy) pre).getD []) ++
    skaffoldKept ((lastAssigned (fun d => d.manifests) pre).getD [])

/-- The references a single skaffold document contributes according to the
specification: the kept releases under its deploy section followed by those
under its manifests section. -/
def skaffoldOwn (d : SkaffoldDocument) : List chart :=
  skaffoldKept (d.deploy.getD []) ++ skaffoldKept (d.manifests.getD [])

/-- The URL declared for an alias in a `repositories` list; when the alias is
declared more than once the last declaration counts. -/
def declaredURL (rs : List HelmfileRepository) (repositoryName : Str) : Option Str :=
  (rs.reverse.find? (fun r => decide (r.Name = repositoryName))).map (fun r => r.URL)

/-- The specification's rule for one helmfile release: split the chart string
on its first `/`; without a `/`, or when the part before it is not a declared
alias, the release is skipped; otherwise it yields the reference made of the
declared URL, the text after the first `/` and the release's version. -/
def resolveRelease (rs : List HelmfileRepository) (release : HelmfileRelease) :
    Option chart :=
  if '/' ∈ release.Chart then
    (declaredURL rs (release.Chart.takeWhile (fun c => decide (c ≠ '/')))).map
      (fun url =>
        { path := [], repository := url,
          name := (release.Chart.dropWhile (fun c => decide (c ≠ '/'))).tail,
          version := release.Version })
  else none

/-! ## Example inputs for the extractors -/

/-- A skaffold release with a chart name and neither repository nor version. -/
def bareSkaffoldRelease : SkaffoldRelease :=
  { Repo := [], RemoteChart := "nginx".toList, Version := [] }

/-- A skaffold release of the chart `redis`. -/
def redisSkaffoldRelease : SkaffoldRelease :=
  { Repo := "https://charts.example.com".toList, RemoteChart := "redis".toList,
    Version := "3.0.0".toList }

/-- A skaffold release of the chart `nginx`. -/
def nginxSkaffoldRelease : SkaffoldRelease :=
  { Repo := "https://charts.example.com".toList, RemoteChart := "nginx".toList,
    Version := "1.0.0".toList }

/-- A skaffold document with one release under `deploy` and no `manifests`
section. -/
def deployOnlyDocument : SkaffoldDocument :=
  { manifests := none, deploy := some [nginxSkaffoldRelease] }

/-- A skaffold document with one release under `manifests` and no `deploy`
section. -/
def manifestsOnlyDocument : SkaffoldDocument :=
  { manifests := some [redisSkaffoldRelease], deploy := none }

/-- A helmfile document declaring the alias `stable` and no releases key. -/
def aliasOnlyDocument : HelmfileDocument :=
  { repositories := some [stableRepository], releases := none }

/-- A helmfile document declaring an empty `repositories` list and no releases
key. -/
def noAliasDocument : HelmfileDocument :=
  { repositories := some [], releases := none }

/-! ## Resolution orchestrator (`main.go`) -/

/-- The first loop of `getLatestChartVersions` (lines 172-184).  `resolve`
stands for `getRepositoryLatestChartVersions`; the third argument is the map
`repositoryChartVersions` built so far and the fourth one the list of
repository URLs `resolve` has been called with so far.  The result is the
final list of calls and the final map, or `none` for the map when a call
failed. -/
def fetchLoop (resolve : Str → Option (GoMap Str Str)) :
    List chart → GoMap Str (GoMap Str Str) → List Str →
      List Str × Option (GoMap Str (GoMap Str Str))
  | [], repositoryChartVersions, calls => (calls, some repositoryChartVersions)
  | c :: rest, repositoryChartVersions, calls =>
    match mapGet repositoryChartVersions c.repository with
    | some _ => fetchLoop resolve rest repositoryChartVersions calls
    | none =>
      match resolve c.repository with
      | none => (calls ++ [c.repository], none)
      | some versions =>
        fetchLoop resolve rest (mapSet repositoryChartVersions c.repository versions)
          (calls ++ [c.repository])

/-- The second loop of `getLatestChartVersions` (lines 186-193), started with
the map `chartVersions` built so far. -/
def lookupLoop (repositoryChartVersions : GoMap Str (GoMap Str Str)) :
    List chart → GoMap chart Str → Option (GoMap chart Str)
  | [], chartVersions => some chartVersions
  | c :: rest, chartVersions =>
    match mapGet repositoryChartVersions c.repository with
    | none => none
    | some versions =>
      match mapGet versions c.name with
      | none => none
      | some version => lookupLoop repositoryChartVersions rest (mapSet chartVersions c version)

/-- The function `getLatestChartVersions` of `main.go`, with the repository
index resolver as a parameter. -/
def getLatestChartVersions (resolve : Str → Option (GoMap Str Str)) (charts : List chart) :
    Option (GoMap chart Str) :=
  match (fetchLoop resolve charts [] []).2 with
  | none => none
  | some repositoryChartVersions => lookupLoop repositoryChartVersions charts []

/-- The repository URLs the resolver is called with during
`getLatestChartVersions`, in call order. -/
def resolverCalls (resolve : Str → Option (GoMap Str Str)) (charts : List chart) :
    List Str :=
  (fetchLoop resolve charts [] []).1

/-- A list with duplicates removed, in order of first occurrence. -/
def distinctInOrder : List Str → List Str
  | [] => []
  | x :: xs => x :: (distinctInOrder xs).filter (fun y => decide (y ≠ x))

/-- The calls made on a list of repositories fetched one after the other, up
to and including the first one on which the resolver fails. -/
def callsUntilFailure (resolve : Str → Option (GoMap Str Str)) : List Str → List Str
  | [] => []
  | u :: rest =>
    match resolve u with
    | some _ => u :: callsUntilFailure resolve rest
    | none => [u]


/-! ## Example inputs for the orchestrator -/

/-- The reference of the end-to-end example, as found in `/work/Chart.yaml`. -/
def appChart : chart :=
  { path := "/work/Chart.yaml".toList, repository := "https://example.test/charts".toList,
    name := "app".toList, version := "1.0.0".toList }

/-- A stub resolver reporting latest 1.1.0 for `app` in every repository. -/
def appResolver : Str → Option (GoMap Str Str) :=
  fun _ => some [("app".toList, "1.1.0".toList)]

/-- A stub resolver that fails on the repository `https://down.test` and
reports latest 1.1.0 for `app` elsewhere. -/
def flakyResolver : Str → Option (GoMap Str Str) :=
  fun u => if u = "https://down.test".toList then none
    else some [("app".toList, "1.1.0".toList)]

/-- A reference to a chart of the repository `https://down.test`. -/
def downChart : chart :=
  { path := "/work/Chart.yaml".toList, repository := "https://down.test".toList,
    name := "app".toList, version := "1.0.0".toList }

/-- A reference to a chart of a third repository. -/
def otherChart : chart :=
  { path := "/work/Chart.yaml".toList, repository := "https://other.test".toList,
    name := "app".toList, version := "1.0.0".toList }


/-! ## Tree scanner (`main.go`) -/

mutual
/-- What the scanner meets at a path: a file that opens (with its contents), a
file on which `os.Open` fails, a directory with its listing (in the order
`os.ReadDir` returns it), or a directory on which `os.ReadDir` fails. -/
inductive FsNode (F : Type) where
  | file (contents : F)
  | lockedFile
  | dir (entries : FsEntries F)
  | lockedDir
/-- A directory listing: entry names with what is found under each. -/
inductive FsEntries (F : Type) where
  | nil
  | cons (name : Str) (node : FsNode F) (rest : FsEntries F)
end

/-- The test `entry.IsDir()`. -/
def FsNode.isDir {F : Type} : FsNode F → Bool
  | .dir _ => true
  | .lockedDir => true
  | _ => false

/-- The loop `for i := range entryCharts { entryCharts[i].path = entryPath }`. -/
def stampPath (entryPath : Str) (entryCharts : List chart) : List chart :=
  entryCharts.map (fun c => { c with path := entryPath })

mutual
/-- The function `getCharts` of `main.go`, applied to `path` when `node` is
what lies at that path.  `join` stands for `filepath.Join` and `read reader f`
for running the extractor `reader` on the opened file. -/
def getCharts {F : Type} (join : Str → Str → Str)
    (read : Reader → F → Option (List chart)) (path : Str) :
    FsNode F → Option (List chart)
  | .dir entries => getChartsLoop join read path entries []
  | .lockedDir => none
  | .file _ => none
  | .lockedFile => none
/-- The loop `for _, entry := range entries` of `getCharts` (lines 37-67),
started with the slice `charts` built so far. -/
def getChartsLoop {F : Type} (join : Str → Str → Str)
    (read : Reader → F → Option (List chart)) (path : Str) :
    FsEntries F → List chart → Option (List chart)
  | .nil, charts => some charts
  | .cons name node rest, charts =>
    match node with
    | .dir entries =>
      match getCharts join read (join path name) (.dir entries) with
      | none => none
      | some entryCharts => getChartsLoop join read path rest (charts ++ entryCharts)
    | .lockedDir => none
    | .file contents =>
      match dispatch name with
      | some reader =>
        match read reader contents with
        | none => none
        | some entryCharts =>
          getChartsLoop join read path rest (charts ++ stampPath (join path name) entryCharts)
      | none => getChartsLoop join read path rest charts
    | .lockedFile =>
      match dispatch name with
      | some _ => none
      | none => getChartsLoop join read path rest charts
end


/-! ## Notions the specification refers to: scanner -/

mutual
/-- The recognized manifest files below a directory `path`, in directory-listing
order with subdirectories recursed in place: the full path of each file, the
extractor registered for its name, and its contents (`none` when the file does
not open).  Entries with unrecognized names are left out. -/
def manifestFiles {F : Type} (join : Str → Str → Str) (path : Str) :
    FsEntries F → List (Str × Reader × Option F)
  | .nil => []
  | .cons name node rest =>
    manifestFilesAt join (join path name) name node ++ manifestFiles join path rest
/-- The recognized manifest files found at the entry `name` whose full path is
`entryPath`. -/
def manifestFilesAt {F : Type} (join : Str → Str → Str) (entryPath name : Str) :
    FsNode F → List (Str × Reader × Option F)
  | .dir entries => manifestFiles join entryPath entries
  | .lockedDir => []
  | .file contents =>
    match dispatch name with
    | some reader => [(entryPath, reader, some contents)]
    | none => []
  | .lockedFile =>
    match dispatch name with
    | some reader => [(entryPath, reader, none)]
    | none => []
end

mutual
/-- Some directory below the listing cannot be listed. -/
def hasLockedDir {F : Type} : FsEntries F → Bool
  | .nil => false
  | .cons _ node rest => hasLockedDirAt node || hasLockedDir rest
/-- The entry is, or contains, a directory that cannot be listed. -/
def hasLockedDirAt {F : Type} : FsNode F → Bool
  | .dir entries => hasLockedDir entries
  | .lockedDir => true
  | .file _ => false
  | .lockedFile => false
end

/-- The outcome of one recognized manifest file: the output of its extractor
with every reference's path set to the full path of the file and the other
fields unchanged; `none` when the file does not open or the extractor fails. -/
def manifestOutput {F : Type} (read : Reader → F → Option (List chart)) :
    Str × Reader × Option F → Option (List chart)
  | (entryPath, reader, some contents) =>
    (read reader contents).map
      (fun cs => cs.map (fun c =>
        { path := entryPath, repository := c.repository, name := c.name,
          version := c.version }))
  | (_, _, none) => none

/-- Listing some directory below `path`, opening some recognized manifest file
or running some extractor fails. -/
def scanFails {F : Type} (join : Str → Str → Str)
    (read : Reader → F → Option (List chart)) (path : Str) (entries : FsEntries F) : Bool :=
  hasLockedDir entries ||
    (manifestFiles join path entries).any (fun m => (manifestOutput read m).isNone)

/-- The concatenation of the outcomes of the recognized manifest files below
`path`. -/
def scanOutput {F : Type} (join : Str → Str → Str)
    (read : Reader → F → Option (List chart)) (path : Str) (entries : FsEntries F) :
    List chart :=
  (manifestFiles join path entries).flatMap (fun m => (manifestOutput read m).getD [])


/-! ## Top-level reporting (`main.go`) -/

/-- A model of `fmt.Sprintf` for formats whose only verb is `%s`, applied to
string arguments. -/
def sprintf : Str → List Str → Str
  | [], _ => []
  | '%' :: 's' :: rest, a :: args => a ++ sprintf rest args
  | '%' :: 's' :: rest, [] => "%!s(MISSING)".toList ++ sprintf rest []
  | c :: rest, args => c :: sprintf rest args

/-- The loop of lines 231-235 of `main`, over the map `latestChartVersions`
(visited in list order): the texts written by `fmt.Printf`, one per call. -/
def reportLoop : GoMap chart Str → List Str
  | [] => []
  | (c, latestVersion) :: rest =>
    if c.version ≠ latestVersion then
      sprintf "%s: %s %s %s -> %s\n".toList
          [c.path, c.repository, c.name, c.version, latestVersion] ::
        reportLoop rest
    else reportLoop rest

/-- The function `main` from the call of `getCharts` on (lines 219-235): the
texts written to standard output, or `none` when the run exits with an
error. -/
def mainOutput {F : Type} (join : Str → Str → Str)
    (read : Reader → F → Option (List chart)) (resolve : Str → Option (GoMap Str Str))
    (path : Str) (root : FsNode F) : Option (List Str) :=
  match getCharts join read path root with
  | none => none
  | some charts =>
    match getLatestChartVersions resolve charts with
    | none => none
    | some latestChartVersions => some (reportLoop latestChartVersions)

/-- What the YAML decoder yields on a file under the schema of each
extractor. -/
structure FileContents where
  asChartYaml : Option (List HelmDependency)
  asHelmfile : List (Option HelmfileDocument)
  asSkaffold : List (Option SkaffoldDocument)
  asDevSpace : Option (GoMap Str DevSpaceChart)

/-- Running the extractor `reader` on an opened file. -/
def runReader : Reader → FileContents → Option (List chart)
  | .readHelmSubcharts, f => readHelmSubcharts f.asChartYaml
  | .readHelmfileCharts, f => readHelmfileCharts f.asHelmfile
  | .readSkaffoldCharts, f => readSkaffoldCharts f.asSkaffold
  | .readDevSpaceCharts, f => readDevSpaceCharts f.asDevSpace

/-- A model of `filepath.Join(path, name)` for a clean `path` other than the
root and a plain entry name. -/
def joinPath (path name : Str) : Str :=
  path ++ '/' :: name

/-- The report line for a reference and its resolved latest version:
`<path>: <repository> <name> <declared> -> <latest>`. -/
def reportLine (c : chart) (latestVersion : Str) : Str :=
  c.path ++ ": ".toList ++ c.repository ++ " ".toList ++ c.name ++ " ".toList ++
    c.version ++ " -> ".toList ++ latestVersion

/-! ## Example inputs for the scanner and the report -/

/-- A `Chart.yaml` with the single dependency (https://example.test/charts,
app, 1.0.0). -/
def appChartYaml : FileContents :=
  { asChartYaml := some [{ Name := "app".toList,
                           Repository := "https://example.test/charts".toList,
                           Version := "1.0.0".toList }]
    asHelmfile := []
    asSkaffold := []
    asDevSpace := none }

/-- A directory holding that `Chart.yaml` and nothing else. -/
def appTree : FsNode FileContents :=
  .dir (.cons "Chart.yaml".toList (.file appChartYaml) .nil)

/-- A directory holding a `README.md`, a subdirectory `charts` with that
`Chart.yaml`, and a `devspace.yaml`. -/
def nestedTree : FsEntries FileContents :=
  .cons "README.md".toList .lockedFile
    (.cons "charts".toList (.dir (.cons "Chart.yaml".toList (.file appChartYaml) .nil))
      (.cons "devspace.yaml".toList (.file appChartYaml) .nil))

/-- A reference declared at version 1.2 in `/work/Chart.yaml`. -/
def shortVersionChart : chart :=
  { path := "/work/Chart.yaml".toList, repository := "https://example.test/charts".toList,
    name := "app".toList, version := "1.2".toList }


/-! ## Template stripping (`helmfile.go`) -/

/-- The part `.*?}}` of `goTemplateRegexp`, tried at the start of the text that
follows `{{`: at each position the engine first tries `}}`, and otherwise lets
`.` take one character, which must not be a line break.  The result is the
text after the match. -/
def matchEnd : Str → Option Str
  | [] => none
  | c :: cs =>
    if c = '}' ∧ cs.head? = some '}' then some cs.tail
    else if c = '\n' then none
    else matchEnd cs

/-- A match of `goTemplateRegexp` (the pattern `{{.*?}}`) starting at the first
character of the text: the text after the match, or `none`. -/
def matchAt (s : Str) : Option Str :=
  match s with
  | c :: d :: x => if c = '{' ∧ d = '{' then matchEnd x else none
  | _ => none

/-- The scan of `ReplaceAll(contents, nil)`: at each position, a match is
dropped and the scan resumes after it, otherwise the character is kept.  The
first argument bounds the number of steps. -/
def stripLoop : Nat → Str → Str
  | 0, _ => []
  | _ + 1, [] => []
  | n + 1, c :: cs =>
    match matchAt (c :: cs) with
    | some rest => stripLoop n rest
    | none => c :: stripLoop n cs

/-- The step `goTemplateRegexp.ReplaceAll(contents, nil)` of
`readHelmfileCharts` (line 25); one step per character suffices. -/
def stripTemplates (contents : Str) : Str :=
  stripLoop contents.length contents

/-! ## Theorems -/

theorem tripleKey_lt_iff (x y : Int × Int × Int) :
    tripleKey x < tripleKey y ↔
      x.1 < y.1 ∨ (x.1 = y.1 ∧ (x.2.1 < y.2.1 ∨ (x.2.1 = y.2.1 ∧ x.2.2 < y.2.2))) := by
  unfold tripleKey
  rw [Prod.Lex.lt_iff]
  simp only
  rw [Prod.Lex.lt_iff]

theorem tripleKey_eq_iff (x y : Int × Int × Int) :
    tripleKey x = tripleKey y ↔ x = y := by
  obtain ⟨x1, x2, x3⟩ := x
  obtain ⟨y1, y2, y3⟩ := y
  unfold tripleKey
  constructor
  · intro h
    have h1 := congrArg ofLex h
    simp only [ofLex_toLex, Prod.mk.injEq] at h1
    obtain ⟨h2, h3⟩ := h1
    have h4 := congrArg ofLex h3
    simp only [ofLex_toLex, Prod.mk.injEq] at h4
    simp [h2, h4.1, h4.2]
  · intro h
    simp only [Prod.mk.injEq] at h
    simp [h.1, h.2.1, h.2.2]

theorem compareVersions_of_parsed (a b : Str) (x y : Int × Int × Int)
    (ha : parseVersion a = some x) (hb : parseVersion b = some y) :
    compareVersions a b = some (lexCompare x y) := by
  obtain ⟨x1, x2, x3⟩ := x
  obtain ⟨y1, y2, y3⟩ := y
  unfold compareVersions lexCompare
  simp only [ha, hb, tripleKey_lt_iff, tripleKey_eq_iff, Prod.mk.injEq]
  split_ifs <;> first | rfl | (exfalso; omega)

theorem compareVersions_eq_none_iff (a b : Str) :
    compareVersions a b = none ↔ parseVersion a = none ∨ parseVersion b = none := by
  cases ha : parseVersion a with
  | none => simp [compareVersions, ha]
  | some x =>
    cases hb : parseVersion b with
    | none => simp [compareVersions, ha, hb]
    | some y => simp [compareVersions_of_parsed a b x y ha hb]

/-- C4: for parseable `a` and `b`, `compareVersions a b` is -1, 0 or 1
according to whether the integer triple of `a` is lexicographically less than,
equal to or greater than the triple of `b` (so "1.2.0" is less than "1.10.0"),
and `compareVersions` fails exactly when `parseVersion` fails on `a` or on
`b`. -/
theorem compareVersions_lexicographic (a b : Str) :
    (compareVersions a b = none ↔ parseVersion a = none ∨ parseVersion b = none) ∧
    (∀ x y : Int × Int × Int, parseVersion a = some x → parseVersion b = some y →
      (tripleKey x < tripleKey y → compareVersions a b = some (-1)) ∧
      (x = y → compareVersions a b = some 0) ∧
      (tripleKey y < tripleKey x → compareVersions a b = some 1)) ∧
    compareVersions "1.2.0".toList "1.10.0".toList = some (-1) := by
  refine ⟨compareVersions_eq_none_iff a b, ?_, by decide⟩
  intro x y ha hb
  rw [compareVersions_of_parsed a b x y ha hb]
  unfold lexCompare
  refine ⟨fun h => by simp [h], fun h => by simp [h], fun h => ?_⟩
  have h1 : ¬ tripleKey x < tripleKey y := not_lt_of_lt h
  have h2 : tripleKey x ≠ tripleKey y := ne_of_gt h
  simp [h1, h2]

/-- Witness for C4: "1.2.0" and "1.10.0" both parse, their triples are ordered
numerically, and the comparison returns -1. -/
theorem compareVersions_lexicographic_witness :
    parseVersion "1.2.0".toList = some (1, 2, 0) ∧
    parseVersion "1.10.0".toList = some (1, 10, 0) ∧
    compareVersions "1.2.0".toList "1.10.0".toList = some (-1) :=
  ⟨by decide, by decide,
    ((compareVersions_lexicographic "1.2.0".toList "1.10.0".toList).2.1
      (1, 2, 0) (1, 10, 0) (by decide) (by decide)).1
      ((tripleKey_lt_iff _ _).2 (by decide))⟩

/-- C5: on parseable strings `compareVersions` is a total order consistent with
the numeric triples: it is reflexive, `compareVersions a b` is the negation of
`compareVersions b a`, it returns 0 exactly when the triples are equal, and
"less or equal" is transitive. -/
theorem compareVersions_total_order (a b c : Str) (x y z : Int × Int × Int)
    (ha : parseVersion a = some x) (hb : parseVersion b = some y)
    (hc : parseVersion c = some z) :
    compareVersions a a = some 0 ∧
    (∃ r : Int, compareVersions a b = some r ∧ compareVersions b a = some (-r)) ∧
    (compareVersions a b = some 0 ↔ x = y) ∧
    (∀ r s : Int, compareVersions a b = some r → compareVersions b c = some s →
      r ≤ 0 → s ≤ 0 → ∃ t : Int, compareVersions a c = some t ∧ t ≤ 0) := by
  rw [compareVersions_of_parsed a a x x ha ha, compareVersions_of_parsed a b x y ha hb,
    compareVersions_of_parsed b a y x hb ha, compareVersions_of_parsed b c y z hb hc,
    compareVersions_of_parsed a c x z ha hc]
  unfold lexCompare
  rcases lt_trichotomy (tripleKey x) (tripleKey y) with hxy | hxy | hxy
  · have h1 : ¬ tripleKey y < tripleKey x := not_lt_of_lt hxy
    have h2 : tripleKey y ≠ tripleKey x := ne_of_gt hxy
    have h3 : x ≠ y := fun h => (ne_of_lt hxy) (by rw [h])
    refine ⟨by simp, ⟨-1, by simp [hxy], by simp [h1, h2]⟩, by simp [hxy, h3], ?_⟩
    intro r s hr hs _ hs0
    rcases lt_trichotomy (tripleKey y) (tripleKey z) with hyz | hyz | hyz
    · exact ⟨-1, by simp [lt_trans hxy hyz], by norm_num⟩
    · exact ⟨-1, by simp [hyz ▸ hxy], by norm_num⟩
    · have h4 : ¬ tripleKey y < tripleKey z := not_lt_of_lt hyz
      have h5 : tripleKey y ≠ tripleKey z := ne_of_gt hyz
      simp [h4, h5] at hs
      omega
  · have h3 : x = y := (tripleKey_eq_iff x y).1 hxy
    subst h3
    refine ⟨by simp, ⟨0, by simp, by simp⟩, by simp, ?_⟩
    intro r s _ hs _ hs0
    exact ⟨s, hs, hs0⟩
  · have h1 : ¬ tripleKey x < tripleKey y := not_lt_of_lt hxy
    have h2 : tripleKey x ≠ tripleKey y := ne_of_gt hxy
    have h3 : x ≠ y := fun h => h2 (by rw [h])
    refine ⟨by simp, ⟨1, by simp [h1, h2], by simp [hxy]⟩, by simp [h1, h2, h3], ?_⟩
    intro r s hr _ hr0 _
    simp [h1, h2] at hr
    omega

/-- Witness for C5 at "1.2.0", "1.10.0" and "2.0.0". -/
theorem compareVersions_total_order_witness :
    compareVersions "1.2.0".toList "1.2.0".toList = some 0 ∧
    (∃ r : Int, compareVersions "1.2.0".toList "1.10.0".toList = some r ∧
      compareVersions "1.10.0".toList "1.2.0".toList = some (-r)) ∧
    (compareVersions "1.2.0".toList "1.10.0".toList = some 0 ↔
      ((1, 2, 0) : Int × Int × Int) = (1, 10, 0)) ∧
    (∀ r s : Int, compareVersions "1.2.0".toList "1.10.0".toList = some r →
      compareVersions "1.10.0".toList "2.0.0".toList = some s →
      r ≤ 0 → s ≤ 0 →
      ∃ t : Int, compareVersions "1.2.0".toList "2.0.0".toList = some t ∧ t ≤ 0) :=
  compareVersions_total_order "1.2.0".toList "1.10.0".toList "2.0.0".toList
    (1, 2, 0) (1, 10, 0) (2, 0, 0) (by decide) (by decide) (by decide)

/-! ### Splitting and integer parsing -/

theorem cutAt_eq_none_iff (sep : Char) (s : Str) : cutAt sep s = none ↔ sep ∉ s := by
  induction s with
  | nil => simp [cutAt]
  | cons c cs ih =>
    unfold cutAt
    by_cases h : c = sep
    · simp [h]
    · cases hc : cutAt sep cs with
      | none =>
        have := ih.1 hc
        simp [h, this, Ne.symm h]
      | some ht =>
        have h1 : sep ∈ cs := by
          by_contra hn
          rw [ih.2 hn] at hc
          cases hc
        simp [h, h1]

theorem cutAt_some_spec (sep : Char) (s h t : Str) (hs : cutAt sep s = some (h, t)) :
    s = h ++ sep :: t ∧ sep ∉ h := by
  induction s generalizing h with
  | nil => simp [cutAt] at hs
  | cons c cs ih =>
    unfold cutAt at hs
    by_cases hc : c = sep
    · simp only [hc, if_true, Option.some.injEq, Prod.mk.injEq] at hs
      obtain ⟨rfl, rfl⟩ := hs
      simp [hc]
    · simp only [hc, if_false] at hs
      cases hcs : cutAt sep cs with
      | none => simp [hcs] at hs
      | some ht =>
        obtain ⟨h', t'⟩ := ht
        simp only [hcs, Option.some.injEq, Prod.mk.injEq] at hs
        obtain ⟨rfl, rfl⟩ := hs
        have ih' := ih h' hcs
        refine ⟨by simp [← ih'.1], ?_⟩
        simp [ih'.2, Ne.symm hc]

theorem cutAt_append (sep : Char) (h t : Str) (hh : sep ∉ h) :
    cutAt sep (h ++ sep :: t) = some (h, t) := by
  induction h with
  | nil => simp [cutAt]
  | cons a as ih =>
    have h1 : a ≠ sep := fun e => hh (e ▸ List.mem_cons_self _ _)
    have h2 : sep ∉ as := fun hm => hh (List.mem_cons_of_mem _ hm)
    simp [cutAt, h1, ih h2]

theorem cutAt_eq_some_iff (sep : Char) (s h t : Str) :
    cutAt sep s = some (h, t) ↔ s = h ++ sep :: t ∧ sep ∉ h :=
  ⟨cutAt_some_spec sep s h t, fun ⟨h1, h2⟩ => h1 ▸ cutAt_append sep h t h2⟩

theorem splitN_three_eq (sep : Char) (s : Str) :
    splitN sep s 3 =
      match cutAt sep s with
      | none => [s]
      | some (h, t) =>
        match cutAt sep t with
        | none => [h, t]
        | some (h', t') => [h, h', t'] := by
  unfold splitN
  cases h0 : cutAt sep s with
  | none => rfl
  | some ht =>
    obtain ⟨h, t⟩ := ht
    simp only
    unfold splitN
    cases h1 : cutAt sep t with
    | none => rfl
    | some ht' =>
      obtain ⟨h', t'⟩ := ht'
      simp [splitN]

theorem splitN_three_iff (sep : Char) (s p0 p1 p2 : Str) :
    splitN sep s 3 = [p0, p1, p2] ↔
      cutAt sep s = some (p0, p1 ++ sep :: p2) ∧ sep ∉ p1 := by
  rw [splitN_three_eq]
  cases h0 : cutAt sep s with
  | none => simp
  | some ht =>
    obtain ⟨h, t⟩ := ht
    simp only
    cases h1 : cutAt sep t with
    | none =>
      have h2 := (cutAt_eq_none_iff sep t).1 h1
      constructor
      · intro h3
        simp at h3
      · rintro ⟨h3, _⟩
        simp only [Option.some.injEq, Prod.mk.injEq] at h3
        rw [h3.2] at h2
        simp at h2
    | some ht' =>
      obtain ⟨h', t'⟩ := ht'
      have h2 := (cutAt_eq_some_iff sep t h' t').1 h1
      simp only [List.cons.injEq, and_true, Option.some.injEq, Prod.mk.injEq]
      constructor
      · rintro ⟨rfl, rfl, rfl⟩
        exact ⟨⟨rfl, h2.1⟩, h2.2⟩
      · rintro ⟨⟨rfl, h3⟩, h4⟩
        have h5 := (cutAt_eq_some_iff sep t p1 p2).2 ⟨h3, h4⟩
        rw [h1] at h5
        simp only [Option.some.injEq, Prod.mk.injEq] at h5
        exact ⟨rfl, h5.1, h5.2⟩

theorem digitVal_eq (c : Char) :
    digitVal c = if c.isDigit then some (c.toNat - 48) else none := by
  unfold digitVal Char.isDigit
  have h0 : ('0' : Char).val = 48 := rfl
  have h9 : ('9' : Char).val = 57 := rfl
  have hn : ('0' : Char).toNat = 48 := rfl
  by_cases h : '0' ≤ c ∧ c ≤ '9'
  · have h1 : (c.val ≥ 48 && c.val ≤ 57) = true := by
      simp only [Char.le_def, h0, h9] at h
      simp [h.1, h.2]
    simp [h, h1, hn]
  · have h1 : (c.val ≥ 48 && c.val ≤ 57) = false := by
      simp only [Char.le_def, h0, h9] at h
      by_contra hc
      simp at hc
      exact h ⟨hc.1, hc.2⟩
    simp [h, h1]

theorem decimalValue_cons (c : Char) (cs : Str) :
    decimalValue (c :: cs) = (c.toNat - 48) * 10 ^ cs.length + decimalValue cs := by
  unfold decimalValue
  simp [Nat.ofDigits_append, Nat.ofDigits_singleton]
  ring

theorem parseDigits_eq (ds : Str) (n : Nat) :
    parseDigits ds n =
      if ds.all Char.isDigit then some (n * 10 ^ ds.length + decimalValue ds) else none := by
  induction ds generalizing n with
  | nil => simp [parseDigits, decimalValue]
  | cons c cs ih =>
    unfold parseDigits
    rw [digitVal_eq]
    by_cases hc : c.isDigit = true
    · simp only [hc, if_true, ih, List.all_cons, Bool.true_and, decimalValue_cons,
        List.length_cons]
      by_cases hcs : cs.all Char.isDigit = true
      · simp only [hcs, if_true, Option.some.injEq]
        ring
      · simp [hcs]
    · simp [hc]

theorem atoi_eq (p : Str) :
    atoi p = if isIntLiteral p then some (intLiteralValue p) else none := by
  cases p with
  | nil => simp [atoi, isIntLiteral, isDigitRun]
  | cons c cs =>
    unfold atoi isIntLiteral intLiteralValue isDigitRun
    by_cases hm : c = '-'
    · subst hm
      cases cs with
      | nil => simp
      | cons d ds =>
        simp only [parseDigits_eq, intSize]
        by_cases hd : (d :: ds).all Char.isDigit = true
        · by_cases hr : decimalValue (d :: ds) ≤ 2 ^ 63
          · simp [hd, hr]
          · simp [hd, hr]
        · simp [hd]
    · by_cases hp : c = '+'
      · subst hp
        cases cs with
        | nil => simp
        | cons d ds =>
          simp only [parseDigits_eq, intSize]
          by_cases hd : (d :: ds).all Char.isDigit = true
          · by_cases hr : decimalValue (d :: ds) < 2 ^ 63
            · simp [hd, hr]
            · simp [hd, hr]
          · simp [hd]
      · simp only [parseDigits_eq, intSize]
        by_cases hd : (c :: cs).all Char.isDigit = true
        · by_cases hr : decimalValue (c :: cs) < 2 ^ 63
          · simp [hm, hp, hd, hr]
          · simp [hm, hp, hd, hr]
        · simp [hm, hp, hd]

theorem atoi_none_of_nondigit (q t : Str) (c : Char) (hq : q ≠ [])
    (hc : c.isDigit = false) : atoi (q ++ c :: t) = none := by
  cases q with
  | nil => exact absurd rfl hq
  | cons d q' =>
    rw [atoi_eq]
    have h1 : (q' ++ c :: t).all Char.isDigit = false := by
      simp only [List.all_eq_false]
      exact ⟨c, by simp, by simp [hc]⟩
    have h2 : (d :: (q' ++ c :: t)).all Char.isDigit = false := by
      simp only [List.all_eq_false]
      exact ⟨c, by simp, by simp [hc]⟩
    simp only [isIntLiteral, isDigitRun, List.cons_append, List.head?_cons, List.tail_cons, h1,
      h2, Bool.and_false, Bool.false_and]
    split_ifs <;> first | rfl | (exfalso; assumption)

theorem atoi_none_of_head (t : Str) (c : Char) (hc : c.isDigit = false)
    (hm : c ≠ '-') (hp : c ≠ '+') : atoi (c :: t) = none := by
  rw [atoi_eq]
  simp [isIntLiteral, isDigitRun, hm, hp, hc]

theorem atoi_some_not_mem (p : Str) (v : Int) (c : Char) (hv : atoi p = some v)
    (hc : c.isDigit = false) (hm : c ≠ '-') (hp : c ≠ '+') : c ∉ p := by
  intro hmem
  obtain ⟨q, t, rfl⟩ := List.append_of_mem hmem
  cases q with
  | nil =>
    rw [List.nil_append, atoi_none_of_head t c hc hm hp] at hv
    cases hv
  | cons d q' =>
    rw [atoi_none_of_nondigit (d :: q') t c (by simp) hc] at hv
    cases hv

theorem splitOn_eq_cut (sep : Char) (s : Str) :
    s.splitOn sep =
      match cutAt sep s with
      | none => [s]
      | some (h, t) => h :: t.splitOn sep := by
  induction s with
  | nil => simp [cutAt, List.splitOn_nil]
  | cons c cs ih =>
    unfold List.splitOn at ih ⊢
    rw [List.splitOnP_cons]
    unfold cutAt
    by_cases hc : c = sep
    · simp [hc]
    · have hb : (c == sep) = false := by simpa using hc
      simp only [hb, hc, if_false]
      rw [ih]
      cases h : cutAt sep cs with
      | none => simp [List.modifyHead]
      | some ht =>
        obtain ⟨h', t'⟩ := ht
        simp [List.modifyHead]

theorem parseVersion_eq_signed (s : Str) : parseVersion s = parseVersionSigned s := by
  unfold parseVersion parseVersionSigned
  rw [splitN_three_eq, splitOn_eq_cut]
  cases h0 : cutAt '.' s with
  | none => rfl
  | some ht =>
    obtain ⟨p0, t⟩ := ht
    simp only
    rw [splitOn_eq_cut]
    cases h1 : cutAt '.' t with
    | none => rfl
    | some ht' =>
      obtain ⟨p1, p2⟩ := ht'
      simp only
      rw [splitOn_eq_cut]
      cases h2 : cutAt '.' p2 with
      | none =>
        simp only [atoi_eq]
        by_cases a0 : isIntLiteral p0 = true
        · by_cases a1 : isIntLiteral p1 = true
          · by_cases a2 : isIntLiteral p2 = true
            · simp [a0, a1, a2]
            · simp [a0, a1, a2]
          · simp [a0, a1]
        · simp [a0]
      | some hab =>
        obtain ⟨a, b⟩ := hab
        have hmem : '.' ∈ p2 := by
          rw [(cutAt_some_spec '.' p2 a b h2).1]
          simp
        have hnone : atoi p2 = none := by
          cases hv : atoi p2 with
          | none => rfl
          | some v =>
            exact absurd hmem
              (atoi_some_not_mem p2 v '.' hv (by decide) (by decide) (by decide))
        have hne : b.splitOn '.' ≠ [] := List.splitOnP_ne_nil _ _
        simp only [hnone]
        cases hb : b.splitOn '.' with
        | nil => exact absurd hb hne
        | cons x xs =>
          cases atoi p0 <;> cases atoi p1 <;> rfl

theorem parseVersion_some_split (s : Str) (v : Int × Int × Int)
    (hs : parseVersion s = some v) :
    ∃ p0 p1 p2, splitN '.' s 3 = [p0, p1, p2] ∧ p2 ≠ [] := by
  unfold parseVersion at hs
  split at hs
  · rename_i p0 p1 p2 heq
    refine ⟨p0, p1, p2, heq, ?_⟩
    rintro rfl
    have : atoi [] = none := rfl
    rw [this] at hs
    cases h0 : atoi p0 <;> cases h1 : atoi p1 <;> simp [h0, h1] at hs
  · cases hs

theorem parseVersion_none_of_patch (s p0 p1 p2 : Str)
    (hs : splitN '.' s 3 = [p0, p1, p2]) (hp : atoi p2 = none) :
    parseVersion s = none := by
  unfold parseVersion
  rw [hs]
  simp only [hp]
  cases atoi p0 <;> cases atoi p1 <;> rfl

theorem parseVersion_append_none (s t : Str) (c : Char) (v : Int × Int × Int)
    (hs : parseVersion s = some v) (hc : c = '-' ∨ c = '+' ∨ c = '.') :
    parseVersion (s ++ c :: t) = none := by
  obtain ⟨p0, p1, p2, hsplit, hne⟩ := parseVersion_some_split s v hs
  have h1 := (splitN_three_iff '.' s p0 p1 p2).1 hsplit
  have h2 := cutAt_some_spec '.' s p0 _ h1.1
  have h3 : splitN '.' (s ++ c :: t) 3 = [p0, p1, p2 ++ c :: t] := by
    rw [splitN_three_iff]
    refine ⟨?_, h1.2⟩
    rw [cutAt_eq_some_iff]
    refine ⟨?_, h2.2⟩
    rw [h2.1]
    simp
  have hd : c.isDigit = false := by
    rcases hc with rfl | rfl | rfl <;> decide
  exact parseVersion_none_of_patch _ p0 p1 _ h3 (atoi_none_of_nondigit p2 t c hne hd)

theorem parseVersion_none_of_count (s : Str) (hs : s.count '.' < 2) :
    parseVersion s = none := by
  unfold parseVersion
  rw [splitN_three_eq]
  cases h0 : cutAt '.' s with
  | none => rfl
  | some ht =>
    obtain ⟨p0, t⟩ := ht
    simp only
    cases h1 : cutAt '.' t with
    | none => rfl
    | some ht' =>
      obtain ⟨p1, p2⟩ := ht'
      exfalso
      have e0 := (cutAt_some_spec '.' s p0 t h0).1
      have e1 := (cutAt_some_spec '.' t p1 p2 h1).1
      rw [e0, e1] at hs
      simp [List.count_append, List.count_cons] at hs
      omega

/-- C6, counterexample: "-1.2.3" is accepted with major -1, although its first
part is not a run of decimal digits and the specification's reading rejects
the string. -/
theorem parseVersion_accepts_sign :
    parseVersion "-1.2.3".toList = some (-1, 2, 3) ∧
    parseVersionSpec "-1.2.3".toList = none := by
  constructor <;> decide

/-- C6, amended: `parseVersion s` succeeds if and only if `s` splits on `.` into
exactly three parts, each an optional `+` or `-` followed by a non-empty run of
decimal digits whose signed value fits the `int` range; the returned major,
minor and patch are the signed values of the three parts. -/
theorem parseVersion_signed_parts (s : Str) : parseVersion s = parseVersionSigned s :=
  parseVersion_eq_signed s

/-- C7: appending to an accepted version string a suffix that begins with `-`,
`+` or `.` makes `parseVersion` fail, and `parseVersion` fails on every string
with fewer than two `.` characters; "1.2.3-beta" and "1.2" both fail. -/
theorem parseVersion_rejects_suffix :
    (∀ (s t : Str) (c : Char), (parseVersion s).isSome = true →
      (c = '-' ∨ c = '+' ∨ c = '.') → parseVersion (s ++ c :: t) = none) ∧
    (∀ s : Str, s.count '.' < 2 → parseVersion s = none) ∧
    parseVersion "1.2.3-beta".toList = none ∧
    parseVersion "1.2".toList = none := by
  refine ⟨?_, parseVersion_none_of_count, by decide, by decide⟩
  intro s t c hs hc
  cases hv : parseVersion s with
  | none => simp [hv] at hs
  | some v => exact parseVersion_append_none s t c v hv hc

/-- Witness for C7: "1.2.3" is accepted and "1.2.3" followed by "-beta" is
rejected; "1.2" has one `.` and is rejected. -/
theorem parseVersion_rejects_suffix_witness :
    (parseVersion "1.2.3".toList).isSome = true ∧
    parseVersion ("1.2.3".toList ++ '-' :: "beta".toList) = none ∧
    "1.2".toList.count '.' < 2 ∧
    parseVersion "1.2".toList = none :=
  ⟨by decide,
    parseVersion_rejects_suffix.1 "1.2.3".toList "beta".toList '-' (by decide) (Or.inl rfl),
    by decide,
    parseVersion_rejects_suffix.2.1 "1.2".toList (by decide)⟩

/-! ### Insertion sort with a comparator that agrees with a key -/

theorem insertLoop_spec {α σ K : Type} [LinearOrder K]
    (less : σ → α → α → Bool × σ) (key : α → K) (P : α → Prop)
    (s0 : σ)
    (hless : ∀ s a b, P a → P b → less s a b = (decide (key a < key b), s0))
    (x : α) (pre : List α) (s : σ)
    (hP : ∀ v ∈ x :: pre, P v)
    (hsorted : pre.Pairwise (fun a b => key b ≤ key a)) :
    ((insertLoop less x pre s).2 = s0 ∨ (pre = [] ∧ (insertLoop less x pre s).2 = s)) ∧
    (insertLoop less x pre s).1.Perm (x :: pre) ∧
    (insertLoop less x pre s).1.Pairwise (fun a b => key b ≤ key a) := by
  induction pre generalizing s with
  | nil => simp [insertLoop]
  | cons p ps ih =>
    have hx : P x := hP x (List.mem_cons_self _ _)
    have hp : P p := hP p (by simp)
    have hps : ∀ v ∈ x :: ps, P v := by
      intro v hv
      rcases List.mem_cons.1 hv with h | h
      · exact h ▸ hx
      · exact hP v (by simp [h])
    have hs' := List.pairwise_cons.1 hsorted
    unfold insertLoop
    rw [hless s x p hx hp]
    by_cases hlt : key x < key p
    · obtain ⟨_, h2, h3⟩ := ih s0 hps hs'.2
      simp only [hlt, decide_True]
      refine ⟨?_, ?_, ?_⟩
      · rcases (ih s0 hps hs'.2).1 with h | h
        · exact Or.inl h
        · exact Or.inl h.2
      · exact (List.Perm.cons p h2).trans (List.Perm.swap x p ps)
      · refine List.pairwise_cons.2 ⟨?_, h3⟩
        intro y hy
        rcases List.mem_cons.1 (h2.mem_iff.1 hy) with h | h
        · exact h ▸ le_of_lt hlt
        · exact hs'.1 y h
    · simp only [hlt, decide_False]
      refine ⟨by simp, List.Perm.refl _, ?_⟩
      refine List.pairwise_cons.2 ⟨?_, hsorted⟩
      intro y hy
      rcases List.mem_cons.1 hy with h | h
      · exact h ▸ not_lt.1 hlt
      · exact le_trans (hs'.1 y h) (not_lt.1 hlt)

theorem insertionSortLoop_spec {α σ K : Type} [LinearOrder K]
    (less : σ → α → α → Bool × σ) (key : α → K) (P : α → Prop)
    (s0 : σ)
    (hless : ∀ s a b, P a → P b → less s a b = (decide (key a < key b), s0))
    (pre rest : List α)
    (hP : ∀ v ∈ pre ++ rest, P v)
    (hsorted : pre.Pairwise (fun a b => key b ≤ key a)) :
    (insertionSortLoop less pre rest s0).2 = s0 ∧
    (insertionSortLoop less pre rest s0).1.Perm (pre ++ rest) ∧
    (insertionSortLoop less pre rest s0).1.Pairwise (fun a b => key a ≤ key b) := by
  induction rest generalizing pre with
  | nil =>
    simp only [insertionSortLoop, List.append_nil, true_and]
    exact ⟨List.reverse_perm pre, List.pairwise_reverse.2 hsorted⟩
  | cons x rest ih =>
    have hP1 : ∀ v ∈ x :: pre, P v := by
      intro v hv
      rcases List.mem_cons.1 hv with h | h
      · exact hP v (by simp [h])
      · exact hP v (by simp [h])
    obtain ⟨h1, h2, h3⟩ := insertLoop_spec less key P s0 hless x pre s0 hP1 hsorted
    have hs : (insertLoop less x pre s0).2 = s0 := by
      rcases h1 with h | h
      · exact h
      · exact h.2
    unfold insertionSortLoop
    have hP2 : ∀ v ∈ (insertLoop less x pre s0).1 ++ rest, P v := by
      intro v hv
      rcases List.mem_append.1 hv with h | h
      · exact hP1 v (h2.mem_iff.1 h)
      · exact hP v (by simp [h])
    obtain ⟨g1, g2, g3⟩ := ih (insertLoop less x pre s0).1 hP2 h3
    have e : insertLoop less x pre s0 = ((insertLoop less x pre s0).1, s0) :=
      Prod.ext rfl hs
    rw [e]
    refine ⟨g1, ?_, g3⟩
    refine g2.trans ?_
    refine (List.Perm.append_right rest h2).trans ?_
    simp only [List.cons_append]
    exact (List.perm_middle).symm

theorem insertionSort_spec {α σ K : Type} [LinearOrder K]
    (less : σ → α → α → Bool × σ) (key : α → K) (P : α → Prop)
    (s0 : σ)
    (hless : ∀ s a b, P a → P b → less s a b = (decide (key a < key b), s0))
    (l : List α) (hP : ∀ v ∈ l, P v) :
    (insertionSort less l s0).2 = s0 ∧
    (insertionSort less l s0).1.Perm l ∧
    (insertionSort less l s0).1.Pairwise (fun a b => key a ≤ key b) := by
  cases l with
  | nil => simp [insertionSort]
  | cons x rest =>
    unfold insertionSort
    exact insertionSortLoop_spec less key P s0 hless [x] rest (by simpa using hP)
      (List.pairwise_singleton _ _)

/-! ### The index resolver -/

theorem verKey_of_parsed (v : Str) (t : Int × Int × Int) (h : parseVersion v = some t) :
    verKey v = tripleKey t := by
  simp [verKey, h]

theorem lexCompare_neg_iff (x y : Int × Int × Int) :
    lexCompare x y < 0 ↔ tripleKey x < tripleKey y := by
  unfold lexCompare
  split_ifs with h1 h2 <;> simp [h1]

theorem lexCompare_nonpos_iff (x y : Int × Int × Int) :
    lexCompare x y ≤ 0 ↔ tripleKey x ≤ tripleKey y := by
  unfold lexCompare
  split_ifs with h1 h2
  · simp [le_of_lt h1]
  · simp [le_of_eq h2]
  · have h3 : ¬ tripleKey x ≤ tripleKey y := fun h => by
      rcases lt_or_eq_of_le h with h4 | h4
      · exact h1 h4
      · exact h2 h4
    simp [h3]

theorem versionLess_of_parsed (e : Bool) (a b : Str)
    (ha : (parseVersion a).isSome = true) (hb : (parseVersion b).isSome = true) :
    versionLess e a b = (decide (verKey a < verKey b), false) := by
  obtain ⟨x, hx⟩ := Option.isSome_iff_exists.1 ha
  obtain ⟨y, hy⟩ := Option.isSome_iff_exists.1 hb
  unfold versionLess
  rw [compareVersions_of_parsed a b x y hx hy, verKey_of_parsed a x hx,
    verKey_of_parsed b y hy]
  simp only [lexCompare_neg_iff]

theorem compareVersions_nonpos_of_key (w v : Str)
    (hw : (parseVersion w).isSome = true) (hv : (parseVersion v).isSome = true)
    (hk : verKey w ≤ verKey v) :
    ∃ c : Int, compareVersions w v = some c ∧ c ≤ 0 := by
  obtain ⟨x, hx⟩ := Option.isSome_iff_exists.1 hw
  obtain ⟨y, hy⟩ := Option.isSome_iff_exists.1 hv
  rw [verKey_of_parsed w x hx, verKey_of_parsed v y hy] at hk
  exact ⟨lexCompare x y, compareVersions_of_parsed w v x y hx hy,
    (lexCompare_nonpos_iff x y).2 hk⟩

theorem sortSlice_small {α σ : Type}
    (sortLarge : (σ → α → α → Bool × σ) → List α → σ → List α × σ)
    (less : σ → α → α → Bool × σ) (x : List α) (s : σ) (h : x.length ≤ 12) :
    sortSlice sortLarge less x s = insertionSort less x s := by
  unfold sortSlice
  rw [if_pos h]

theorem sortSlice_large {α σ : Type}
    (sortLarge : (σ → α → α → Bool × σ) → List α → σ → List α × σ)
    (less : σ → α → α → Bool × σ) (x : List α) (s : σ) (h : 12 < x.length) :
    sortSlice sortLarge less x s = sortLarge less x s := by
  unfold sortSlice
  rw [if_neg (by omega)]

theorem verKey_le_of_compareVersions (a b : Str) (c : Int)
    (h : compareVersions a b = some c) (hc : c ≤ 0) : verKey a ≤ verKey b := by
  cases ha : parseVersion a with
  | none =>
    rw [(compareVersions_eq_none_iff a b).2 (Or.inl ha)] at h
    cases h
  | some x =>
    cases hb : parseVersion b with
    | none =>
      rw [(compareVersions_eq_none_iff a b).2 (Or.inr hb)] at h
      cases h
    | some y =>
      rw [compareVersions_of_parsed a b x y ha hb] at h
      simp only [Option.some.injEq] at h
      rw [verKey_of_parsed a x ha, verKey_of_parsed b y hb, ← lexCompare_nonpos_iff, h]
      exact hc

theorem insertionSort_sortsVersions : SortsVersions insertionSort := by
  intro l _ hP
  obtain ⟨h1, h2, h3⟩ := insertionSort_spec versionLess verKey
    (fun v => (parseVersion v).isSome = true) false
    (fun s a b ha hb => versionLess_of_parsed s a b ha hb) l hP
  refine ⟨h1, h2, ?_⟩
  refine List.Pairwise.imp_of_mem ?_ h3
  intro a b ha hb hk
  exact compareVersions_nonpos_of_key a b (hP a (h2.mem_iff.1 ha)) (hP b (h2.mem_iff.1 hb)) hk

theorem sortSlice_versions (sortLarge : VersionSort) (hsort : SortsVersions sortLarge)
    (l : List Str) (hne : l ≠ [])
    (hP : ∀ v ∈ l, (parseVersion v).isSome = true) :
    ∃ sorted latest, sortSlice sortLarge versionLess l false = (sorted, false) ∧
      sorted.getLast? = some latest ∧ latest ∈ l ∧
      ∀ w ∈ l, verKey w ≤ verKey latest := by
  have hspec : (sortSlice sortLarge versionLess l false).2 = false ∧
      (sortSlice sortLarge versionLess l false).1.Perm l ∧
      (sortSlice sortLarge versionLess l false).1.Pairwise
        (fun a b => verKey a ≤ verKey b) := by
    by_cases hlen : l.length ≤ 12
    · rw [sortSlice_small sortLarge versionLess l false hlen]
      exact insertionSort_spec versionLess verKey
        (fun v => (parseVersion v).isSome = true) false
        (fun s a b ha hb => versionLess_of_parsed s a b ha hb) l hP
    · rw [sortSlice_large sortLarge versionLess l false (by omega)]
      obtain ⟨g1, g2, g3⟩ := hsort l (by omega) hP
      refine ⟨g1, g2, g3.imp ?_⟩
      rintro a b ⟨c, hc, hc0⟩
      exact verKey_le_of_compareVersions a b c hc hc0
  obtain ⟨h1, h2, h3⟩ := hspec
  have hne' : (sortSlice sortLarge versionLess l false).1 ≠ [] := by
    intro h
    rw [h] at h2
    exact hne (List.Perm.eq_nil h2.symm)
  obtain ⟨ys, latest, hys⟩ :
      ∃ ys latest, (sortSlice sortLarge versionLess l false).1 = ys ++ [latest] :=
    ⟨_, _, (List.dropLast_append_getLast hne').symm⟩
  refine ⟨(sortSlice sortLarge versionLess l false).1, latest, Prod.ext rfl h1, ?_, ?_, ?_⟩
  · rw [hys]
    simp
  · exact h2.mem_iff.1 (by rw [hys]; simp)
  · intro w hw
    have hw' : w ∈ ys ++ [latest] := hys ▸ h2.mem_iff.2 hw
    rw [hys] at h3
    rcases List.mem_append.1 hw' with h | h
    · exact (List.pairwise_append.1 h3).2.2 w h latest (by simp)
    · simp only [List.mem_singleton] at h
      rw [h]

theorem mapGet_mapSet {κ ν : Type} [DecidableEq κ] (m : GoMap κ ν) (k k' : κ) (v : ν) :
    mapGet (mapSet m k v) k' = if k = k' then some v else mapGet m k' := by
  induction m with
  | nil => simp [mapSet, mapGet]
  | cons p rest ih =>
    obtain ⟨a, b⟩ := p
    unfold mapSet
    by_cases h : a = k
    · subst h
      by_cases h' : a = k' <;> simp [mapGet, h']
    · by_cases h' : a = k'
      · subst h'
        simp [mapGet, h, Ne.symm h]
      · simp only [h, if_false, mapGet, h', ih]

theorem mem_mapKeys_mapSet {κ ν : Type} [DecidableEq κ] (m : GoMap κ ν) (k k' : κ) (v : ν) :
    k' ∈ mapKeys (mapSet m k v) ↔ k' = k ∨ k' ∈ mapKeys m := by
  induction m with
  | nil => simp [mapSet, mapKeys]
  | cons p rest ih =>
    obtain ⟨a, b⟩ := p
    unfold mapSet
    by_cases h : a = k
    · subst h
      simp [mapKeys]
    · simp only [h, if_false]
      simp only [mapKeys, List.map_cons, List.mem_cons] at ih ⊢
      rw [ih]
      tauto

theorem hyphenFree_ne_nil_iff (entry : List Str) :
    hyphenFree entry ≠ [] ↔ ∃ v ∈ entry, '-' ∉ v := by
  unfold hyphenFree
  rw [Ne, List.filter_eq_nil_iff]
  simp

theorem mem_hyphenFree (entry : List Str) (v : Str) :
    v ∈ hyphenFree entry ↔ v ∈ entry ∧ '-' ∉ v := by
  simp [hyphenFree]

theorem latestLoop_cons_skip (sortLarge : VersionSort) (name : Str) (entry : List Str)
    (rest : IndexEntries) (m : GoMap Str Str) (h : hyphenFree entry = []) :
    latestLoop sortLarge ((name, entry) :: rest) m = latestLoop sortLarge rest m := by
  unfold hyphenFree at h
  rw [latestLoop]
  simp only [h]

theorem latestLoop_cons_sort (sortLarge : VersionSort) (name : Str) (entry : List Str)
    (rest : IndexEntries) (m : GoMap Str Str) (h : hyphenFree entry ≠ []) :
    latestLoop sortLarge ((name, entry) :: rest) m =
      match sortSlice sortLarge versionLess (hyphenFree entry) false with
      | (_, true) => none
      | (sorted, false) =>
        match sorted.getLast? with
        | none => none
        | some latest => latestLoop sortLarge rest (mapSet m name latest) := by
  unfold hyphenFree at h ⊢
  rw [latestLoop]
  cases hf : List.filter (fun v => !decide ('-' ∈ v)) entry with
  | nil => exact absurd hf h
  | cons a as => rfl

theorem latestLoop_keys (sortLarge : VersionSort) (entries : IndexEntries)
    (m r : GoMap Str Str) (h : latestLoop sortLarge entries m = some r) (name : Str) :
    name ∈ mapKeys r ↔
      name ∈ mapKeys m ∨ ∃ entry, (name, entry) ∈ entries ∧ hyphenFree entry ≠ [] := by
  induction entries generalizing m with
  | nil =>
    simp only [latestLoop, Option.some.injEq] at h
    simp [h]
  | cons p rest ih =>
    obtain ⟨n0, e0⟩ := p
    by_cases hf : hyphenFree e0 = []
    · rw [latestLoop_cons_skip sortLarge n0 e0 rest m hf] at h
      rw [ih m h]
      constructor
      · rintro (h1 | ⟨entry, h1, h2⟩)
        · exact Or.inl h1
        · exact Or.inr ⟨entry, List.mem_cons_of_mem _ h1, h2⟩
      · rintro (h1 | ⟨entry, h1, h2⟩)
        · exact Or.inl h1
        · rcases List.mem_cons.1 h1 with h3 | h3
          · simp only [Prod.mk.injEq] at h3
            exact absurd (h3.2 ▸ hf) h2
          · exact Or.inr ⟨entry, h3, h2⟩
    · rw [latestLoop_cons_sort sortLarge n0 e0 rest m hf] at h
      cases hs : sortSlice sortLarge versionLess (hyphenFree e0) false with
      | mk sorted flag =>
        rw [hs] at h
        cases flag with
        | true => cases h
        | false =>
          simp only at h
          cases hl : sorted.getLast? with
          | none => simp [hl] at h
          | some latest =>
            simp only [hl] at h
            rw [ih _ h, mem_mapKeys_mapSet]
            constructor
            · rintro ((h1 | h1) | ⟨entry, h1, h2⟩)
              · exact Or.inr ⟨e0, by simp [h1], hf⟩
              · exact Or.inl h1
              · exact Or.inr ⟨entry, List.mem_cons_of_mem _ h1, h2⟩
            · rintro (h1 | ⟨entry, h1, h2⟩)
              · exact Or.inl (Or.inr h1)
              · rcases List.mem_cons.1 h1 with h3 | h3
                · simp only [Prod.mk.injEq] at h3
                  exact Or.inl (Or.inl h3.1)
                · exact Or.inr ⟨entry, h3, h2⟩

theorem latestLoop_latest (sortLarge : VersionSort) (hsort : SortsVersions sortLarge)
    (entries : IndexEntries) (m : GoMap Str Str)
    (hparse : ∀ name entry, (name, entry) ∈ entries →
      ∀ v ∈ hyphenFree entry, (parseVersion v).isSome = true) :
    ∃ r, latestLoop sortLarge entries m = some r ∧
      (∀ name, name ∉ mapKeys entries → mapGet r name = mapGet m name) ∧
      ((mapKeys entries).Nodup → ∀ name entry, (name, entry) ∈ entries →
        hyphenFree entry ≠ [] →
        ∃ latest, mapGet r name = some latest ∧ latest ∈ hyphenFree entry ∧
          ∀ w ∈ hyphenFree entry, verKey w ≤ verKey latest) := by
  induction entries generalizing m with
  | nil => exact ⟨m, rfl, fun _ _ => rfl, fun _ _ _ h => absurd h (List.not_mem_nil _)⟩
  | cons p rest ih =>
    obtain ⟨n0, e0⟩ := p
    have hparse' : ∀ name entry, (name, entry) ∈ rest →
        ∀ v ∈ hyphenFree entry, (parseVersion v).isSome = true :=
      fun name entry h => hparse name entry (List.mem_cons_of_mem _ h)
    by_cases hf : hyphenFree e0 = []
    · obtain ⟨r, h1, h2, h3⟩ := ih m hparse'
      refine ⟨r, by rw [latestLoop_cons_skip sortLarge n0 e0 rest m hf, h1], ?_, ?_⟩
      · intro name hn
        exact h2 name (fun h => hn (by simp [mapKeys] at h ⊢; exact Or.inr h))
      · intro hnd name entry hmem hne
        have hnd' : (mapKeys rest).Nodup := by
          simp only [mapKeys, List.map_cons, List.nodup_cons] at hnd
          exact hnd.2
        rcases List.mem_cons.1 hmem with h4 | h4
        · simp only [Prod.mk.injEq] at h4
          exact absurd (h4.2 ▸ hf) hne
        · exact h3 hnd' name entry h4 hne
    · obtain ⟨sorted, latest, g1, g2, g3, g4⟩ :=
        sortSlice_versions sortLarge hsort (hyphenFree e0) hf
          (hparse n0 e0 (List.mem_cons_self _ _))
      obtain ⟨r, h1, h2, h3⟩ := ih (mapSet m n0 latest) hparse'
      refine ⟨r, ?_, ?_, ?_⟩
      · rw [latestLoop_cons_sort sortLarge n0 e0 rest m hf, g1]
        simp only [g2]
        exact h1
      · intro name hn
        have hne : n0 ≠ name := by
          intro h
          exact hn (by simp [mapKeys, h])
        rw [h2 name (fun h => hn (by simp [mapKeys] at h ⊢; exact Or.inr h)),
          mapGet_mapSet]
        simp [hne]
      · intro hnd name entry hmem hne
        simp only [mapKeys, List.map_cons, List.nodup_cons] at hnd
        rcases List.mem_cons.1 hmem with h4 | h4
        · simp only [Prod.mk.injEq] at h4
          obtain ⟨rfl, rfl⟩ := h4
          refine ⟨latest, ?_, g3, g4⟩
          rw [h2 name hnd.1, mapGet_mapSet]
          simp
        · exact h3 hnd.2 name entry h4 hne

theorem latestLoop_single (sortLarge : VersionSort) (name : Str) (entry : List Str)
    (hlen : (hyphenFree entry).length ≤ 12) (hne : hyphenFree entry ≠ []) :
    latestLoop sortLarge [(name, entry)] [] = latestLoop insertionSort [(name, entry)] [] := by
  rw [latestLoop_cons_sort sortLarge name entry [] [] hne,
    latestLoop_cons_sort insertionSort name entry [] [] hne,
    sortSlice_small sortLarge versionLess _ false hlen,
    sortSlice_small insertionSort versionLess _ false hlen]
  rfl

/-- C1, the code at two inputs on which it does not fail although a
hyphen-free version string is rejected by `parseVersion`: a chart listing only
"banana" gets "banana" as its latest version, and a chart listing "x", "1.0.0",
"1.1.0" gets "1.1.0".  Both slices have at most 12 elements, so the outcome
does not depend on how longer slices are sorted. -/
theorem getRepositoryLatestChartVersions_keeps_malformed (sortLarge : VersionSort) :
    parseVersion "banana".toList = none ∧
    getRepositoryLatestChartVersions sortLarge
        (fun _ => some [("foo".toList, ["banana".toList])]) "https://example.test".toList =
      some [("foo".toList, "banana".toList)] ∧
    parseVersion "x".toList = none ∧
    getRepositoryLatestChartVersions sortLarge
        (fun _ => some [("foo".toList, ["x".toList, "1.0.0".toList, "1.1.0".toList])])
        "https://example.test".toList =
      some [("foo".toList, "1.1.0".toList)] := by
  refine ⟨by decide, ?_, by decide, ?_⟩
  · unfold getRepositoryLatestChartVersions
    simp only
    rw [latestLoop_single sortLarge _ _ (by decide) (by decide)]
    decide
  · unfold getRepositoryLatestChartVersions
    simp only
    rw [latestLoop_single sortLarge _ _ (by decide) (by decide)]
    decide

/-- C2: when every hyphen-free version string of the index parses, the call
succeeds and, for every chart with at least one hyphen-free version, the
version recorded for the chart is one of its hyphen-free versions and no
hyphen-free version of that chart compares greater than it.  Slices of at most
12 versions are sorted by the insertion sort of package `sort`; for longer
slices `sort.Slice` is taken to sort as documented (`SortsVersions`). -/
theorem getRepositoryLatestChartVersions_maximum (sortLarge : VersionSort)
    (hsort : SortsVersions sortLarge) (fetchIndex : Str → Option IndexEntries)
    (repositoryURL : Str) (entries : IndexEntries)
    (hfetch : fetchIndex repositoryURL = some entries)
    (hkeys : (mapKeys entries).Nodup)
    (hparse : ∀ name entry, (name, entry) ∈ entries →
      ∀ v ∈ entry, '-' ∉ v → (parseVersion v).isSome = true) :
    ∃ versions,
      getRepositoryLatestChartVersions sortLarge fetchIndex repositoryURL = some versions ∧
      ∀ name entry, (name, entry) ∈ entries → (∃ v ∈ entry, '-' ∉ v) →
        ∃ latest, mapGet versions name = some latest ∧ latest ∈ entry ∧ '-' ∉ latest ∧
          ∀ w ∈ entry, '-' ∉ w → ∃ c : Int, compareVersions w latest = some c ∧ c ≤ 0 := by
  have hparse' : ∀ name entry, (name, entry) ∈ entries →
      ∀ v ∈ hyphenFree entry, (parseVersion v).isSome = true := by
    intro name entry hmem v hv
    rw [mem_hyphenFree] at hv
    exact hparse name entry hmem v hv.1 hv.2
  obtain ⟨r, h1, _, h3⟩ := latestLoop_latest sortLarge hsort entries [] hparse'
  refine ⟨r, by simp [getRepositoryLatestChartVersions, hfetch, h1], ?_⟩
  intro name entry hmem hex
  obtain ⟨latest, g1, g2, g3⟩ :=
    h3 hkeys name entry hmem ((hyphenFree_ne_nil_iff entry).2 hex)
  rw [mem_hyphenFree] at g2
  refine ⟨latest, g1, g2.1, g2.2, ?_⟩
  intro w hw hwh
  have hw' : w ∈ hyphenFree entry := (mem_hyphenFree entry w).2 ⟨hw, hwh⟩
  exact compareVersions_nonpos_of_key w latest (hparse name entry hmem w hw hwh)
    (hparse name entry hmem latest g2.1 g2.2) (g3 w hw')

/-- C3: when the call succeeds, a chart name is a key of the result exactly
when one of its listed version strings contains no hyphen; this holds however
`sort.Slice` treats slices of more than 12 elements. -/
theorem getRepositoryLatestChartVersions_keys (sortLarge : VersionSort)
    (fetchIndex : Str → Option IndexEntries)
    (repositoryURL : Str) (entries : IndexEntries) (versions : GoMap Str Str)
    (hfetch : fetchIndex repositoryURL = some entries)
    (hok : getRepositoryLatestChartVersions sortLarge fetchIndex repositoryURL =
      some versions)
    (name : Str) :
    name ∈ mapKeys versions ↔ ∃ entry, (name, entry) ∈ entries ∧ ∃ v ∈ entry, '-' ∉ v := by
  simp only [getRepositoryLatestChartVersions, hfetch] at hok
  rw [latestLoop_keys sortLarge entries [] versions hok name]
  simp only [mapKeys, List.map_nil, List.not_mem_nil, false_or, hyphenFree_ne_nil_iff]

/-- Witness for C2, with insertion sort standing for the sort of long slices
(it sorts as documented): on the index `{"foo": [1.0.0, 1.1.0, 1.2.0-rc1]}` the
resolved latest version of `foo` is 1.1.0, and the theorem applies to an index
listing 13 versions. -/
theorem getRepositoryLatestChartVersions_maximum_witness :
    SortsVersions insertionSort ∧
    getRepositoryLatestChartVersions insertionSort (fun _ => some fooIndex)
        "https://example.test".toList = some [("foo".toList, "1.1.0".toList)] ∧
    (∃ versions,
      getRepositoryLatestChartVersions insertionSort (fun _ => some fooIndex)
        "https://example.test".toList = some versions ∧
      ∀ name entry, (name, entry) ∈ fooIndex → (∃ v ∈ entry, '-' ∉ v) →
        ∃ latest, mapGet versions name = some latest ∧ latest ∈ entry ∧ '-' ∉ latest ∧
          ∀ w ∈ entry, '-' ∉ w → ∃ c : Int, compareVersions w latest = some c ∧ c ≤ 0) ∧
    (∃ versions,
      getRepositoryLatestChartVersions insertionSort (fun _ => some thirteenIndex)
        "https://example.test".toList = some versions ∧
      ∀ name entry, (name, entry) ∈ thirteenIndex → (∃ v ∈ entry, '-' ∉ v) →
        ∃ latest, mapGet versions name = some latest ∧ latest ∈ entry ∧ '-' ∉ latest ∧
          ∀ w ∈ entry, '-' ∉ w → ∃ c : Int, compareVersions w latest = some c ∧ c ≤ 0) :=
  ⟨insertionSort_sortsVersions, by decide,
    getRepositoryLatestChartVersions_maximum insertionSort insertionSort_sortsVersions
      (fun _ => some fooIndex) "https://example.test".toList fooIndex rfl (by decide)
      (by
        intro name entry hmem
        simp only [fooIndex, List.mem_singleton, Prod.mk.injEq] at hmem
        obtain ⟨_, rfl⟩ := hmem
        decide),
    getRepositoryLatestChartVersions_maximum insertionSort insertionSort_sortsVersions
      (fun _ => some thirteenIndex) "https://example.test".toList thirteenIndex rfl
      (by decide)
      (by
        intro name entry hmem
        simp only [thirteenIndex, List.mem_singleton, Prod.mk.injEq] at hmem
        obtain ⟨_, rfl⟩ := hmem
        decide)⟩

/-- Witness for C3: on an index with `foo` (two stable versions) and `bar`
(pre-release only) the call succeeds, `foo` is a key and `bar` is not. -/
theorem getRepositoryLatestChartVersions_keys_witness :
    getRepositoryLatestChartVersions insertionSort (fun _ => some fooBarIndex)
        "https://example.test".toList = some [("foo".toList, "1.1.0".toList)] ∧
    "bar".toList ∉ mapKeys [("foo".toList, "1.1.0".toList)] ∧
    ("bar".toList ∈ mapKeys [("foo".toList, "1.1.0".toList)] ↔
      ∃ entry, ("bar".toList, entry) ∈ fooBarIndex ∧ ∃ v ∈ entry, '-' ∉ v) :=
  ⟨by decide, by decide,
    getRepositoryLatestChartVersions_keys insertionSort (fun _ => some fooBarIndex)
      "https://example.test".toList fooBarIndex [("foo".toList, "1.1.0".toList)] rfl
      (by decide) "bar".toList⟩

/-- C8, the registry at the file name `devspace.yaml`: no extractor is
registered, no file name is dispatched to `readDevSpaceCharts`, and the names
that are dispatched are exactly `Chart.yaml`, `helmfile.yaml` and
`skaffold.yaml`. -/
theorem dispatch_devspace_unregistered :
    dispatch "devspace.yaml".toList = none ∧
    (∀ n : Str, dispatch n ≠ some Reader.readDevSpaceCharts) ∧
    (∀ n : Str, (dispatch n).isSome = true ↔
      n = "Chart.yaml".toList ∨ n = "helmfile.yaml".toList ∨ n = "skaffold.yaml".toList) := by
  refine ⟨by decide, ?_, ?_⟩
  · intro n
    unfold dispatch chartReaders
    simp only [mapGet]
    split_ifs <;> simp
  · intro n
    unfold dispatch chartReaders
    simp only [mapGet]
    split_ifs with h1 h2 h3
    · exact ⟨fun _ => Or.inl h1.symm, fun _ => rfl⟩
    · exact ⟨fun _ => Or.inr (Or.inl h2.symm), fun _ => rfl⟩
    · exact ⟨fun _ => Or.inr (Or.inr h3.symm), fun _ => rfl⟩
    · constructor
      · intro h
        cases h
      · rintro (h | h | h)
        · exact absurd h.symm h1
        · exact absurd h.symm h2
        · exact absurd h.symm h3

/-! ### The helmfile extractor -/

theorem lastDeclared_cons_getD {β : Type} (f : HelmfileDocument → Option β)
    (d : HelmfileDocument) (rest : List HelmfileDocument) (x : β) :
    (lastDeclared f (d :: rest)).getD x = (lastDeclared f rest).getD ((f d).getD x) := by
  cases h : lastDeclared f rest <;> simp [lastDeclared, h]

theorem helmfileLoop_cons (d : HelmfileDocument) (rest : List (Option HelmfileDocument))
    (v : HelmfileValue) (charts : List chart) :
    helmfileLoop (some d :: rest) v charts =
      helmfileLoop rest (decodeInto v d)
        (releaseCharts (aliasTable (decodeInto v d).Repositories) (decodeInto v d).Releases
          []) := rfl

theorem helmfileLoop_all_decode (docs : List HelmfileDocument) (d : HelmfileDocument)
    (v : HelmfileValue) (charts : List chart) :
    helmfileLoop ((d :: docs).map some) v charts =
      some (releaseCharts
        (aliasTable ((lastDeclared (fun x => x.repositories) (d :: docs)).getD v.Repositories))
        ((lastDeclared (fun x => x.releases) (d :: docs)).getD v.Releases) []) := by
  induction docs generalizing d v charts with
  | nil =>
    simp only [List.map_cons, List.map_nil, helmfileLoop_cons, helmfileLoop, decodeInto,
      lastDeclared]
  | cons d' rest ih =>
    rw [List.map_cons, helmfileLoop_cons, ih d' (decodeInto v d),
      lastDeclared_cons_getD _ d (d' :: rest), lastDeclared_cons_getD _ d (d' :: rest)]
    rfl

theorem mem_releaseCharts (table : GoMap Str Str) (rels : List HelmfileRelease)
    (acc : List chart) (c : chart) :
    c ∈ releaseCharts table rels acc ↔
      c ∈ acc ∨ ∃ release ∈ rels, ∃ repositoryName,
        cutAt '/' release.Chart = some (repositoryName, c.name) ∧
        mapGet table repositoryName = some c.repository ∧
        c.version = release.Version ∧ c.path = [] := by
  induction rels generalizing acc with
  | nil => simp [releaseCharts]
  | cons r rest ih =>
    unfold releaseCharts
    cases hcut : cutAt '/' r.Chart with
    | none =>
      simp only [ih, List.mem_cons, exists_eq_or_imp, hcut]
      simp
    | some ht =>
      obtain ⟨a, n⟩ := ht
      simp only
      cases hget : mapGet table a with
      | none =>
        simp only [ih, List.mem_cons, exists_eq_or_imp, hcut, Option.some.injEq,
          Prod.mk.injEq]
        constructor
        · rintro (h | h)
          · exact Or.inl h
          · exact Or.inr (Or.inr h)
        · rintro (h | ⟨x, ⟨rfl, _⟩, h2, _⟩ | h)
          · exact Or.inl h
          · rw [hget] at h2
            cases h2
          · exact Or.inr h
      | some url =>
        simp only [ih, List.mem_append, List.mem_cons, List.not_mem_nil, or_false,
          exists_eq_or_imp, hcut, Option.some.injEq, Prod.mk.injEq]
        constructor
        · rintro ((h | h) | h)
          · exact Or.inl h
          · subst h
            exact Or.inr (Or.inl ⟨a, ⟨rfl, rfl⟩, hget, rfl, rfl⟩)
          · exact Or.inr (Or.inr h)
        · rintro (h | ⟨x, ⟨rfl, h1⟩, h2, h3, h4⟩ | h)
          · exact Or.inl (Or.inl h)
          · refine Or.inl (Or.inr ?_)
            rw [hget] at h2
            simp only [Option.some.injEq] at h2
            obtain ⟨p, rp, nm, ver⟩ := c
            simp only at h1 h2 h3 h4
            subst h1 h2 h3 h4
            rfl
          · exact Or.inr h

theorem lastDeclared_append_singleton {β : Type} (f : HelmfileDocument → Option β)
    (pre : List HelmfileDocument) (d : HelmfileDocument) :
    lastDeclared f (pre ++ [d]) =
      match f d with
      | some x => some x
      | none => lastDeclared f pre := by
  induction pre with
  | nil => cases h : f d <;> simp [lastDeclared, h]
  | cons p rest ih =>
    rw [List.cons_append, lastDeclared, ih]
    cases h : f d with
    | none => simp [lastDeclared]
    | some x => rfl

theorem readHelmfileCharts_all_decode (docs : List HelmfileDocument) (hne : docs ≠ []) :
    readHelmfileCharts (docs.map some) =
      some (releaseCharts
        (aliasTable ((lastDeclared (fun x => x.repositories) docs).getD []))
        ((lastDeclared (fun x => x.releases) docs).getD []) []) := by
  cases docs with
  | nil => exact absurd rfl hne
  | cons d rest => exact helmfileLoop_all_decode rest d _ _

/-- C9, counterexample: the first document declares the alias `stable` and a
release `stable/nginx` (version 1.0.0), the second one declares no
repositories and a release `stable/nginx` (version 2.0.0).  Read alone, the
second document yields nothing; read after the first one, its release is
resolved through the alias of the first document and is returned. -/
theorem readHelmfileCharts_alias_carried_over :
    releaseOnlyDocument.repositories = none ∧
    readHelmfileCharts [some releaseOnlyDocument] = some [] ∧
    readHelmfileCharts [some aliasAndReleaseDocument, some releaseOnlyDocument] =
      some [nginxChart2] := by
  refine ⟨rfl, by decide, by decide⟩

/-- C9, amended: for a source whose documents all decode, the releases are
resolved against the alias table built from the most recent `repositories`
declaration (that of the last document having the key, which replaces every
earlier declaration), and against no other alias: a chart reference is
returned exactly when it comes from a release of the current release list
whose text before the first `/` is an alias of that table. -/
theorem readHelmfileCharts_alias_table (docs : List HelmfileDocument) (hne : docs ≠ []) :
    ∃ charts, readHelmfileCharts (docs.map some) = some charts ∧
      ∀ c : chart, c ∈ charts ↔
        ∃ release ∈ (lastDeclared (fun x => x.releases) docs).getD [], ∃ repositoryName,
          release.Chart = repositoryName ++ '/' :: c.name ∧ '/' ∉ repositoryName ∧
          mapGet (aliasTable ((lastDeclared (fun x => x.repositories) docs).getD []))
            repositoryName = some c.repository ∧
          c.version = release.Version ∧ c.path = [] := by
  refine ⟨_, readHelmfileCharts_all_decode docs hne, ?_⟩
  intro c
  rw [mem_releaseCharts]
  simp only [List.not_mem_nil, false_or, cutAt_eq_some_iff, and_assoc]

/-- Witness for C9 on the two documents of the counterexample. -/
theorem readHelmfileCharts_alias_table_witness :
    [aliasAndReleaseDocument, releaseOnlyDocument] ≠ [] ∧
    ∃ charts,
      readHelmfileCharts ([aliasAndReleaseDocument, releaseOnlyDocument].map some) =
        some charts ∧
      ∀ c : chart, c ∈ charts ↔
        ∃ release ∈ (lastDeclared (fun x => x.releases)
            [aliasAndReleaseDocument, releaseOnlyDocument]).getD [], ∃ repositoryName,
          release.Chart = repositoryName ++ '/' :: c.name ∧ '/' ∉ repositoryName ∧
          mapGet (aliasTable ((lastDeclared (fun x => x.repositories)
            [aliasAndReleaseDocument, releaseOnlyDocument]).getD []))
            repositoryName = some c.repository ∧
          c.version = release.Version ∧ c.path = [] :=
  ⟨by simp,
    readHelmfileCharts_alias_table [aliasAndReleaseDocument, releaseOnlyDocument] (by simp)⟩

/-- C10, counterexample: the first document declares the alias `stable` and the
release `stable/nginx`, the second one has neither key.  The last document
alone yields nothing, yet the result holds the first document's release. -/
theorem readHelmfileCharts_keeps_earlier_release :
    readHelmfileCharts [some otherKeysDocument] = some [] ∧
    readHelmfileCharts [some aliasAndReleaseDocument, some otherKeysDocument] =
      some [nginxChart] := by
  refine ⟨by decide, by decide⟩

/-- C10, amended: for a source of one or more documents that all decode, the
result is the extraction of the single document that carries, for each of
`repositories` and `releases`, the most recent declaration of that property
among the documents; when the last document declares both properties this is
the extraction of the last document alone. -/
theorem readHelmfileCharts_last_declarations (docs : List HelmfileDocument)
    (hne : docs ≠ []) :
    readHelmfileCharts (docs.map some) =
      readHelmfileCharts
        [some { repositories := lastDeclared (fun x => x.repositories) docs
                releases := lastDeclared (fun x => x.releases) docs }] ∧
    ∀ (pre : List HelmfileDocument) (d : HelmfileDocument),
      docs = pre ++ [d] → d.repositories.isSome = true → d.releases.isSome = true →
      readHelmfileCharts (docs.map some) = readHelmfileCharts [some d] := by
  have hmain : ∀ l : List HelmfileDocument, l ≠ [] →
      readHelmfileCharts (l.map some) =
        readHelmfileCharts
          [some { repositories := lastDeclared (fun x => x.repositories) l
                  releases := lastDeclared (fun x => x.releases) l }] := by
    intro l hl
    rw [readHelmfileCharts_all_decode l hl]
    have h1 := readHelmfileCharts_all_decode
      [{ repositories := lastDeclared (fun x => x.repositories) l
         releases := lastDeclared (fun x => x.releases) l }] (by simp)
    simp only [List.map_cons, List.map_nil] at h1
    rw [h1]
    cases lastDeclared (fun x => x.repositories) l <;>
      cases lastDeclared (fun x => x.releases) l <;> rfl
  refine ⟨hmain docs hne, ?_⟩
  intro pre d hd hr hl
  rw [hmain docs hne, hd, lastDeclared_append_singleton, lastDeclared_append_singleton]
  obtain ⟨rs, hrs⟩ := Option.isSome_iff_exists.1 hr
  obtain ⟨ls, hls⟩ := Option.isSome_iff_exists.1 hl
  obtain ⟨dr, dl⟩ := d
  simp only at hrs hls
  subst hrs hls
  rfl

/-- Witness for C10 on the two documents of its counterexample, and on a source
whose last document declares both properties. -/
theorem readHelmfileCharts_last_declarations_witness :
    [aliasAndReleaseDocument, otherKeysDocument] ≠ [] ∧
    readHelmfileCharts ([aliasAndReleaseDocument, otherKeysDocument].map some) =
      readHelmfileCharts
        [some { repositories := lastDeclared (fun x => x.repositories)
                  [aliasAndReleaseDocument, otherKeysDocument]
                releases := lastDeclared (fun x => x.releases)
                  [aliasAndReleaseDocument, otherKeysDocument] }] ∧
    readHelmfileCharts ([otherKeysDocument, aliasAndReleaseDocument].map some) =
      readHelmfileCharts [some aliasAndReleaseDocument] :=
  ⟨by simp,
    (readHelmfileCharts_last_declarations [aliasAndReleaseDocument, otherKeysDocument]
      (by simp)).1,
    (readHelmfileCharts_last_declarations [otherKeysDocument, aliasAndReleaseDocument]
      (by simp)).2 [otherKeysDocument] aliasAndReleaseDocument rfl rfl rfl⟩

/-! ### The Chart.yaml, skaffold and devspace extractors -/

theorem stringsHasPrefix_iff (s p : Str) : stringsHasPrefix s p = true ↔ p <+: s := by
  unfold stringsHasPrefix
  rw [List.prefix_iff_eq_take]
  constructor
  · intro h
    simp only [Bool.and_eq_true, decide_eq_true_eq] at h
    exact h.2.symm
  · intro h
    simp only [Bool.and_eq_true, decide_eq_true_eq]
    refine ⟨?_, h.symm⟩
    have := congrArg List.length h
    simp only [List.length_take] at this
    omega

theorem subchartLoop_eq (deps : List HelmDependency) (acc : List chart) :
    subchartLoop deps acc =
      acc ++ (deps.filter (fun d => decide ("http".toList <+: d.Repository))).map
        dependencyChart := by
  induction deps generalizing acc with
  | nil => simp [subchartLoop]
  | cons d rest ih =>
    unfold subchartLoop
    by_cases h : stringsHasPrefix d.Repository "http".toList = true
    · have h' := (stringsHasPrefix_iff _ _).1 h
      simp only [h, if_true, ih, List.filter_cons, h', decide_True, List.map_cons,
        dependencyChart, List.append_assoc, List.singleton_append]
    · have h' : ¬ ("http".toList <+: d.Repository) := fun hp =>
        h ((stringsHasPrefix_iff _ _).2 hp)
      simp only [h, if_false, ih, List.filter_cons, h', decide_False]
      rfl

/-- C12, counterexample: a dependency whose repository is "httpd-charts" does
not begin with "http://" or "https://", yet `readHelmSubcharts` keeps it. -/
theorem readHelmSubcharts_keeps_http_prefix :
    ¬ beginsWithHttpScheme "httpd-charts".toList ∧
    readHelmSubcharts (some [{ Name := "app".toList, Repository := "httpd-charts".toList,
                               Version := "1.0.0".toList }]) =
      some [{ path := [], repository := "httpd-charts".toList, name := "app".toList,
              version := "1.0.0".toList }] := by
  refine ⟨?_, by decide⟩
  unfold beginsWithHttpScheme
  decide

/-- C12, amended: for every decoded Chart.yaml document, `readHelmSubcharts`
returns, in document order, exactly the dependencies whose repository value
begins with the four characters "http", each with repository, name and version
unchanged; this keeps every repository beginning with "http://" or "https://"
and excludes "file://../other-chart". -/
theorem readHelmSubcharts_http_filter (dependencies : List HelmDependency) :
    readHelmSubcharts (some dependencies) =
      some ((dependencies.filter (fun d => decide ("http".toList <+: d.Repository))).map
        dependencyChart) ∧
    (∀ r : Str, beginsWithHttpScheme r → "http".toList <+: r) ∧
    ¬ ("http".toList <+: "file://../other-chart".toList) ∧
    "http".toList <+: "https://charts.example.com".toList := by
  refine ⟨?_, ?_, by decide, by decide⟩
  · simp [readHelmSubcharts, subchartLoop_eq]
  · rintro r (⟨t, rfl⟩ | ⟨t, rfl⟩)
    · exact ⟨"://".toList ++ t, rfl⟩
    · exact ⟨"s://".toList ++ t, rfl⟩

theorem skaffoldReleaseLoop_eq (rs : List SkaffoldRelease) (acc : List chart) :
    skaffoldReleaseLoop rs acc = acc ++ skaffoldKept rs := by
  induction rs generalizing acc with
  | nil => simp [skaffoldReleaseLoop, skaffoldKept]
  | cons r rest ih =>
    unfold skaffoldReleaseLoop
    by_cases h : r.RemoteChart = []
    · simp [h, ih, skaffoldKept]
    · have h1 : r.RemoteChart.length > 0 := List.length_pos.2 h
      simp [h1, h, ih, skaffoldKept, skaffoldChart]

theorem devSpaceLoop_eq (m : GoMap Str DevSpaceChart) (acc : List chart) :
    devSpaceLoop m acc = acc ++ devSpaceKept m := by
  induction m generalizing acc with
  | nil => simp [devSpaceLoop, devSpaceKept]
  | cons p rest ih =>
    obtain ⟨k, d⟩ := p
    unfold devSpaceLoop
    by_cases h : d.Repo ≠ [] ∧ d.Version ≠ []
    · have h1 : d.Repo.length > 0 ∧ d.Version.length > 0 :=
        ⟨List.length_pos.2 h.1, List.length_pos.2 h.2⟩
      have h2 : decide (d.Repo ≠ [] ∧ d.Version ≠ []) = true := decide_eq_true h
      simp only [h1, and_self, if_true, ih, devSpaceKept, List.filter_cons, h2,
        List.map_cons, devSpaceChartRef, List.append_assoc, List.singleton_append]
    · have h1 : ¬ (d.Repo.length > 0 ∧ d.Version.length > 0) := by
        rintro ⟨a, b⟩
        exact h ⟨List.length_pos.1 a, List.length_pos.1 b⟩
      have h2 : decide (d.Repo ≠ [] ∧ d.Version ≠ []) = false := decide_eq_false h
      simp only [h1, if_false, ih, devSpaceKept, List.filter_cons, h2]
      rfl

theorem lastAssigned_cons_getD {δ β : Type} (f : δ → Option β) (d : δ) (rest : List δ)
    (x : β) :
    (lastAssigned f (d :: rest)).getD x = (lastAssigned f rest).getD ((f d).getD x) := by
  cases h : lastAssigned f rest <;> simp [lastAssigned, h]

theorem skaffoldLoop_all_decode (docs : List SkaffoldDocument) (v : SkaffoldValue)
    (acc : List chart) :
    skaffoldLoop (docs.map some) v acc =
      some (acc ++ docs.inits.tail.flatMap (fun pre =>
        skaffoldKept ((lastAssigned (fun d => d.deploy) pre).getD v.Deploy) ++
          skaffoldKept ((lastAssigned (fun d => d.manifests) pre).getD v.Manifests))) := by
  induction docs generalizing v acc with
  | nil => simp [skaffoldLoop]
  | cons d rest ih =>
    rw [List.map_cons, skaffoldLoop]
    rw [ih, List.inits_cons, List.tail_cons, skaffoldReleaseLoop_eq, skaffoldReleaseLoop_eq]
    have hr : rest.inits = [] :: rest.inits.tail := by
      cases rest with
      | nil => rfl
      | cons a as => rw [List.inits_cons]; rfl
    rw [hr, List.map_cons, List.flatMap_cons, List.tail_cons, List.flatMap_map]
    simp only [lastAssigned_cons_getD, List.append_assoc, Option.some.injEq,
      List.append_cancel_left_eq]
    simp [lastAssigned, skaffoldDecodeInto]

theorem readSkaffoldCharts_all_decode (docs : List SkaffoldDocument) :
    readSkaffoldCharts (docs.map some) = some (docs.inits.tail.flatMap skaffoldAfter) := by
  unfold readSkaffoldCharts
  rw [skaffoldLoop_all_decode]
  rfl

/-- C11, the code at inputs with a missing field: a skaffold release with
neither repository nor version, a Chart.yaml dependency without a version and a
helmfile release without a version are all returned, with an empty version
(and an empty repository for the skaffold release), whereas
`readDevSpaceCharts` drops a deployment with the same missing fields. -/
theorem extractors_keep_empty_fields :
    readSkaffoldCharts [some { manifests := none, deploy := some [bareSkaffoldRelease] }] =
      some [{ path := [], repository := [], name := "nginx".toList, version := [] }] ∧
    readDevSpaceCharts (some [("web".toList,
        { Name := "nginx".toList, Repo := [], Version := [] })]) = some [] ∧
    readHelmSubcharts (some [{ Name := "app".toList,
                               Repository := "https://example.test/charts".toList,
                               Version := [] }]) =
      some [{ path := [], repository := "https://example.test/charts".toList,
              name := "app".toList, version := [] }] ∧
    readHelmfileCharts [some { repositories := some [stableRepository],
                               releases := some [{ Chart := "stable/nginx".toList,
                                                   Version := [] }] }] =
      some [{ path := [], repository := "https://charts.example.com".toList,
              name := "nginx".toList, version := [] }] := by
  refine ⟨by decide, by decide, by decide, by decide⟩

/-- What each extractor's own test ensures: every reference returned by
`readDevSpaceCharts` has a non-empty repository and a non-empty version; every
reference returned by `readHelmSubcharts` has a non-empty repository beginning
with "http"; every reference returned by `readSkaffoldCharts` has a non-empty
name; and on documents that decode no extractor fails. -/
theorem extractors_field_guards :
    (∀ deployments : GoMap Str DevSpaceChart,
      ∃ cs, readDevSpaceCharts (some deployments) = some cs ∧
        ∀ c ∈ cs, c.repository ≠ [] ∧ c.version ≠ []) ∧
    (∀ dependencies : List HelmDependency,
      ∃ cs, readHelmSubcharts (some dependencies) = some cs ∧
        ∀ c ∈ cs, c.repository ≠ [] ∧ "http".toList <+: c.repository) ∧
    (∀ docs : List SkaffoldDocument,
      ∃ cs, readSkaffoldCharts (docs.map some) = some cs ∧ ∀ c ∈ cs, c.name ≠ []) ∧
    (∀ docs : List HelmfileDocument,
      ∃ cs, readHelmfileCharts (docs.map some) = some cs) := by
  refine ⟨?_, ?_, ?_, ?_⟩
  · intro deployments
    refine ⟨_, rfl, ?_⟩
    intro c hc
    rw [devSpaceLoop_eq] at hc
    simp only [devSpaceKept, List.nil_append, List.mem_map, List.mem_filter,
      decide_eq_true_eq] at hc
    obtain ⟨p, ⟨_, h1, h2⟩, rfl⟩ := hc
    exact ⟨h1, h2⟩
  · intro dependencies
    refine ⟨_, rfl, ?_⟩
    intro c hc
    rw [subchartLoop_eq] at hc
    simp only [List.nil_append, List.mem_map, List.mem_filter, decide_eq_true_eq] at hc
    obtain ⟨d, ⟨_, h1⟩, rfl⟩ := hc
    refine ⟨?_, h1⟩
    intro h2
    simp only [dependencyChart] at h2
    rw [h2] at h1
    exact absurd h1 (by decide)
  · intro docs
    refine ⟨_, readSkaffoldCharts_all_decode docs, ?_⟩
    intro c hc
    simp only [List.mem_flatMap, skaffoldAfter, List.mem_append, skaffoldKept, List.mem_map,
      List.mem_filter, decide_eq_true_eq] at hc
    obtain ⟨pre, _, ⟨r, ⟨_, h1⟩, rfl⟩ | ⟨r, ⟨_, h1⟩, rfl⟩⟩ := hc
    · exact h1
    · exact h1
  · intro docs
    cases docs with
    | nil => exact ⟨_, rfl⟩
    | cons d rest => exact ⟨_, readHelmfileCharts_all_decode (d :: rest) (by simp)⟩

theorem cutAt_eq_takeWhile (sep : Char) (s : Str) :
    cutAt sep s =
      if sep ∈ s then
        some (s.takeWhile (fun c => decide (c ≠ sep)),
          (s.dropWhile (fun c => decide (c ≠ sep))).tail)
      else none := by
  induction s with
  | nil => simp [cutAt]
  | cons c cs ih =>
    unfold cutAt
    by_cases h : c = sep
    · subst h
      simp [List.takeWhile, List.dropWhile]
    · rw [ih]
      have h' : sep ≠ c := Ne.symm h
      by_cases hm : sep ∈ cs
      · simp [h, h', hm, List.takeWhile, List.dropWhile]
      · simp [h, h', hm]

theorem mapGet_foldl_mapSet (rs : List HelmfileRepository) (m : GoMap Str Str) (a : Str) :
    mapGet (rs.foldl (fun m r => mapSet m r.Name r.URL) m) a =
      match declaredURL rs a with
      | some url => some url
      | none => mapGet m a := by
  induction rs generalizing m with
  | nil => simp [declaredURL]
  | cons r rest ih =>
    rw [List.foldl_cons, ih]
    unfold declaredURL
    rw [List.reverse_cons, List.find?_append]
    cases hf : List.find? (fun r => decide (r.Name = a)) rest.reverse with
    | some x => simp
    | none =>
      simp only [Option.map_none', Option.none_or, mapGet_mapSet, List.find?_cons,
        List.find?_nil]
      by_cases hn : r.Name = a
      · simp [hn]
      · simp [hn]

theorem mapGet_aliasTable (rs : List HelmfileRepository) (a : Str) :
    mapGet (aliasTable rs) a = declaredURL rs a := by
  unfold aliasTable
  rw [mapGet_foldl_mapSet]
  cases declaredURL rs a <;> rfl

theorem releaseCharts_eq (rs : List HelmfileRepository) (rels : List HelmfileRelease)
    (acc : List chart) :
    releaseCharts (aliasTable rs) rels acc = acc ++ rels.filterMap (resolveRelease rs) := by
  induction rels generalizing acc with
  | nil => simp [releaseCharts]
  | cons r rest ih =>
    unfold releaseCharts
    rw [cutAt_eq_takeWhile, List.filterMap_cons]
    by_cases hm : '/' ∈ r.Chart
    · simp only [hm, if_true, mapGet_aliasTable]
      cases hd : declaredURL rs (List.takeWhile (fun c => decide (c ≠ '/')) r.Chart) with
      | none =>
        have hr : resolveRelease rs r = none := by
          unfold resolveRelease
          rw [if_pos hm, hd]
          rfl
        simp only [hr, ih]
      | some url =>
        have hr : resolveRelease rs r =
            some { path := [], repository := url,
                   name := (r.Chart.dropWhile (fun c => decide (c ≠ '/'))).tail,
                   version := r.Version } := by
          unfold resolveRelease
          rw [if_pos hm, hd]
          rfl
        simp only [hr, ih, List.append_assoc, List.singleton_append]
    · have hr : resolveRelease rs r = none := by simp [resolveRelease, hm]
      simp only [hm, if_false, hr, ih]

/-- C13, counterexample: (1) the release `stable/nginx` of a first document
that declares the alias `stable` yields no reference when a second document
declares an empty `repositories` list; (2) the release `stable/nginx` of a
second document that declares no alias is not skipped when the first document
declared `stable`. -/
theorem readHelmfileCharts_rule_across_documents :
    resolveRelease [stableRepository] nginxRelease = some nginxChart ∧
    readHelmfileCharts [some aliasAndReleaseDocument, some noAliasDocument] = some [] ∧
    resolveRelease (releaseOnlyDocument.repositories.getD []) nginxRelease2 = none ∧
    readHelmfileCharts [some aliasOnlyDocument, some releaseOnlyDocument] =
      some [nginxChart2] := by
  refine ⟨by decide, by decide, by decide, by decide⟩

/-- C13, amended: for a source whose documents all decode, `readHelmfileCharts`
applies the rule to every release of the most recent `releases` declaration,
in order, against the most recent `repositories` declaration: the chart string
is split on its first `/`; without a `/`, or when the part before it is not a
declared alias, the release is skipped; otherwise exactly one reference is
emitted, with the URL declared for the alias, the text after the first `/` and
the release's version.  For a source of one document these are the releases and
the repositories of that document. -/
theorem readHelmfileCharts_release_rule (docs : List HelmfileDocument) (hne : docs ≠ []) :
    readHelmfileCharts (docs.map some) =
      some (((lastDeclared (fun x => x.releases) docs).getD []).filterMap
        (resolveRelease ((lastDeclared (fun x => x.repositories) docs).getD []))) ∧
    ∀ d : HelmfileDocument, docs = [d] →
      readHelmfileCharts [some d] =
        some ((d.releases.getD []).filterMap (resolveRelease (d.repositories.getD []))) := by
  have hmain : ∀ l : List HelmfileDocument, l ≠ [] →
      readHelmfileCharts (l.map some) =
        some (((lastDeclared (fun x => x.releases) l).getD []).filterMap
          (resolveRelease ((lastDeclared (fun x => x.repositories) l).getD []))) := by
    intro l hl
    rw [readHelmfileCharts_all_decode l hl, releaseCharts_eq, List.nil_append]
  refine ⟨hmain docs hne, ?_⟩
  intro d _
  have h := hmain [d] (by simp)
  simpa [lastDeclared] using h

/-- Witness for C13 on the single document declaring `stable` and
`stable/nginx`. -/
theorem readHelmfileCharts_release_rule_witness :
    [aliasAndReleaseDocument] ≠ [] ∧
    readHelmfileCharts [some aliasAndReleaseDocument] =
      some ((aliasAndReleaseDocument.releases.getD []).filterMap
        (resolveRelease (aliasAndReleaseDocument.repositories.getD []))) ∧
    readHelmfileCharts [some aliasAndReleaseDocument] = some [nginxChart] :=
  ⟨by simp,
    (readHelmfileCharts_release_rule [aliasAndReleaseDocument] (by simp)).2
      aliasAndReleaseDocument rfl,
    by decide⟩

theorem skaffold_inits_own (docs : List SkaffoldDocument) (v : SkaffoldValue)
    (h : ∀ d ∈ docs, d.deploy.isSome = true ∧ d.manifests.isSome = true) :
    docs.inits.tail.flatMap (fun pre =>
        skaffoldKept ((lastAssigned (fun d => d.deploy) pre).getD v.Deploy) ++
          skaffoldKept ((lastAssigned (fun d => d.manifests) pre).getD v.Manifests)) =
      docs.flatMap skaffoldOwn := by
  induction docs generalizing v with
  | nil => simp
  | cons d rest ih =>
    have hr : rest.inits = [] :: rest.inits.tail := by
      cases rest with
      | nil => rfl
      | cons a as => rw [List.inits_cons]; rfl
    obtain ⟨hd1, hd2⟩ := h d (List.mem_cons_self _ _)
    obtain ⟨x, hx⟩ := Option.isSome_iff_exists.1 hd1
    obtain ⟨y, hy⟩ := Option.isSome_iff_exists.1 hd2
    have ih' := ih { Manifests := y, Deploy := x }
      (fun e he => h e (List.mem_cons_of_mem _ he))
    rw [List.inits_cons, List.tail_cons, hr, List.map_cons, List.flatMap_cons,
      List.flatMap_map, List.flatMap_cons, ← ih']
    have hnil : ∀ f : SkaffoldDocument → Option (List SkaffoldRelease),
        lastAssigned f [] = none := fun _ => rfl
    simp only [lastAssigned_cons_getD, hnil, hx, hy, Option.getD_some, Option.getD_none,
      skaffoldOwn]

/-- C14, the code at a source of two documents, the first with a release under
`deploy` only and the second with a release under `manifests` only: each
document's own releases give nginx then redis, but the first document's
release is appended twice. -/
theorem readSkaffoldCharts_appends_again :
    skaffoldOwn deployOnlyDocument ++ skaffoldOwn manifestsOnlyDocument =
      [skaffoldChart nginxSkaffoldRelease, skaffoldChart redisSkaffoldRelease] ∧
    readSkaffoldCharts [some deployOnlyDocument, some manifestsOnlyDocument] =
      some [skaffoldChart nginxSkaffoldRelease, skaffoldChart nginxSkaffoldRelease,
            skaffoldChart redisSkaffoldRelease] := by
  refine ⟨by decide, by decide⟩

/-- The result of `readSkaffoldCharts` on documents that all decode: the
concatenation, for each document in order, of the kept releases of the deploy
list followed by those of the manifests list as they stand in `v` after that
document.  When every document after the first assigns both lists, this is
the concatenation of each document's own kept releases. -/
theorem readSkaffoldCharts_accumulates (docs : List SkaffoldDocument) :
    readSkaffoldCharts (docs.map some) = some (docs.inits.tail.flatMap skaffoldAfter) ∧
    ((∀ d ∈ docs.tail, d.deploy.isSome = true ∧ d.manifests.isSome = true) →
      readSkaffoldCharts (docs.map some) = some (docs.flatMap skaffoldOwn)) := by
  refine ⟨readSkaffoldCharts_all_decode docs, ?_⟩
  intro h
  cases docs with
  | nil => rfl
  | cons d rest =>
    rw [List.tail_cons] at h
    rw [List.map_cons, readSkaffoldCharts, skaffoldLoop, skaffoldLoop_all_decode,
      skaffold_inits_own rest _ h, skaffoldReleaseLoop_eq, skaffoldReleaseLoop_eq]
    simp [skaffoldDecodeInto, skaffoldOwn]

/-! ### The resolution orchestrator -/

theorem fetchLoop_calls (resolve : Str → Option (GoMap Str Str)) (charts : List chart)
    (cache : GoMap Str (GoMap Str Str)) (calls : List Str) :
    (fetchLoop resolve charts cache calls).1 =
      calls ++ callsUntilFailure resolve
        ((distinctInOrder (charts.map (fun c => c.repository))).filter
          (fun r => (mapGet cache r).isNone)) := by
  induction charts generalizing cache calls with
  | nil => simp [fetchLoop, distinctInOrder, callsUntilFailure]
  | cons c rest ih =>
    unfold fetchLoop
    simp only [List.map_cons, distinctInOrder, List.filter_cons]
    cases hg : mapGet cache c.repository with
    | some vs =>
      simp only [Option.isNone_some, Bool.false_eq_true, if_false, ih, List.filter_filter]
      congr 2
      apply List.filter_congr
      intro y _
      by_cases hy : y = c.repository
      · simp [hy, hg]
      · simp [hy]
    | none =>
      simp only [Option.isNone_none, if_true]
      cases hr : resolve c.repository with
      | none => simp [callsUntilFailure, hr]
      | some versions =>
        simp only [ih, callsUntilFailure, hr, List.append_assoc, List.singleton_append,
          List.filter_filter]
        congr 3
        apply List.filter_congr
        intro y _
        rw [mapGet_mapSet]
        by_cases hy : y = c.repository
        · simp [hy]
        · simp [hy, Ne.symm hy]

theorem fetchLoop_none_iff (resolve : Str → Option (GoMap Str Str)) (charts : List chart)
    (cache : GoMap Str (GoMap Str Str)) (calls : List Str) :
    (fetchLoop resolve charts cache calls).2 = none ↔
      ∃ c ∈ charts, mapGet cache c.repository = none ∧ resolve c.repository = none := by
  induction charts generalizing cache calls with
  | nil => simp [fetchLoop]
  | cons c rest ih =>
    unfold fetchLoop
    cases hg : mapGet cache c.repository with
    | some vs =>
      simp only
      rw [ih]
      constructor
      · rintro ⟨x, hx, h1, h2⟩
        exact ⟨x, List.mem_cons_of_mem _ hx, h1, h2⟩
      · rintro ⟨x, hx, h1, h2⟩
        rcases List.mem_cons.1 hx with h | h
        · subst h
          rw [hg] at h1
          cases h1
        · exact ⟨x, h, h1, h2⟩
    | none =>
      cases hr : resolve c.repository with
      | none =>
        simp only [true_iff]
        exact ⟨c, List.mem_cons_self _ _, hg, hr⟩
      | some versions =>
        simp only
        rw [ih]
        constructor
        · rintro ⟨x, hx, h1, h2⟩
          rw [mapGet_mapSet] at h1
          by_cases he : c.repository = x.repository
          · simp [he] at h1
          · simp only [he, if_false] at h1
            exact ⟨x, List.mem_cons_of_mem _ hx, h1, h2⟩
        · rintro ⟨x, hx, h1, h2⟩
          have he : c.repository ≠ x.repository := by
            intro he
            rw [he, h2] at hr
            cases hr
          rcases List.mem_cons.1 hx with h | h
          · exact absurd (by rw [h]) he
          · exact ⟨x, h, by rw [mapGet_mapSet]; simp [he, h1], h2⟩

theorem fetchLoop_some (resolve : Str → Option (GoMap Str Str)) (charts : List chart)
    (cache final : GoMap Str (GoMap Str Str)) (calls : List Str)
    (hf : (fetchLoop resolve charts cache calls).2 = some final) (r : Str) :
    mapGet final r =
      match mapGet cache r with
      | some vs => some vs
      | none => if r ∈ charts.map (fun c => c.repository) then resolve r else none := by
  induction charts generalizing cache calls with
  | nil =>
    simp only [fetchLoop, Option.some.injEq] at hf
    subst hf
    cases mapGet cache r <;> simp
  | cons c rest ih =>
    unfold fetchLoop at hf
    cases hg : mapGet cache c.repository with
    | some vs =>
      simp only [hg] at hf
      rw [ih cache calls hf]
      cases hgr : mapGet cache r with
      | some ws => rfl
      | none =>
        have hne : r ≠ c.repository := by
          intro he
          rw [he, hg] at hgr
          cases hgr
        simp [hne]
    | none =>
      simp only [hg] at hf
      cases hr : resolve c.repository with
      | none => simp [hr] at hf
      | some versions =>
        simp only [hr] at hf
        rw [ih _ _ hf, mapGet_mapSet]
        by_cases he : c.repository = r
        · subst he
          simp [hg, hr]
        · simp only [he, if_false, List.map_cons, List.mem_cons, Ne.symm he, false_or]

theorem lookupLoop_none_iff (cache : GoMap Str (GoMap Str Str)) (charts : List chart)
    (m : GoMap chart Str) :
    lookupLoop cache charts m = none ↔
      ∃ c ∈ charts, (mapGet cache c.repository).bind (fun vs => mapGet vs c.name) = none := by
  induction charts generalizing m with
  | nil => simp [lookupLoop]
  | cons c rest ih =>
    unfold lookupLoop
    cases hg : mapGet cache c.repository with
    | none =>
      simp only [true_iff]
      exact ⟨c, List.mem_cons_self _ _, by simp [hg]⟩
    | some vs =>
      simp only
      cases hn : mapGet vs c.name with
      | none =>
        simp only [true_iff]
        exact ⟨c, List.mem_cons_self _ _, by simp [hg, hn]⟩
      | some version =>
        simp only
        rw [ih]
        constructor
        · rintro ⟨x, hx, h1⟩
          exact ⟨x, List.mem_cons_of_mem _ hx, h1⟩
        · rintro ⟨x, hx, h1⟩
          rcases List.mem_cons.1 hx with h | h
          · subst h
            simp [hg, hn] at h1
          · exact ⟨x, h, h1⟩

theorem lookupLoop_some (cache : GoMap Str (GoMap Str Str)) (charts : List chart)
    (m result : GoMap chart Str) (h : lookupLoop cache charts m = some result) (k : chart) :
    mapGet result k =
      if k ∈ charts then (mapGet cache k.repository).bind (fun vs => mapGet vs k.name)
      else mapGet m k := by
  induction charts generalizing m with
  | nil =>
    simp only [lookupLoop, Option.some.injEq] at h
    simp [h]
  | cons c rest ih =>
    unfold lookupLoop at h
    cases hg : mapGet cache c.repository with
    | none => simp [hg] at h
    | some vs =>
      simp only [hg] at h
      cases hn : mapGet vs c.name with
      | none => simp [hn] at h
      | some version =>
        simp only [hn] at h
        rw [ih _ h, mapGet_mapSet]
        by_cases hk : k ∈ rest
        · simp [hk]
        · by_cases he : c = k
          · subst he
            simp [hk, hg, hn]
          · simp [hk, he, Ne.symm he]

theorem fetchLoop_all_resolve (resolve : Str → Option (GoMap Str Str)) (charts : List chart)
    (hres : ∀ c ∈ charts, (resolve c.repository).isSome = true) :
    ∃ final, (fetchLoop resolve charts [] []).2 = some final ∧
      ∀ c ∈ charts, mapGet final c.repository = resolve c.repository := by
  cases hf : (fetchLoop resolve charts [] []).2 with
  | none =>
    obtain ⟨c, hc, _, h2⟩ := (fetchLoop_none_iff resolve charts [] []).1 hf
    have := hres c hc
    rw [h2] at this
    cases this
  | some final =>
    refine ⟨final, rfl, ?_⟩
    intro c hc
    rw [fetchLoop_some resolve charts [] final [] hf c.repository]
    have hm : c.repository ∈ charts.map (fun c => c.repository) :=
      List.mem_map.2 ⟨c, hc, rfl⟩
    simp [mapGet, hm]

/-- C15: when every repository resolves, `getLatestChartVersions` fails exactly
when the name of some reference is absent from the mapping resolved for its
repository; when it succeeds, the result has an entry for every input
reference, whose value is the latest version recorded for the reference's
repository and name. -/
theorem getLatestChartVersions_lookup (resolve : Str → Option (GoMap Str Str))
    (charts : List chart)
    (hres : ∀ c ∈ charts, (resolve c.repository).isSome = true) :
    (getLatestChartVersions resolve charts = none ↔
      ∃ c ∈ charts, ∃ vs, resolve c.repository = some vs ∧ mapGet vs c.name = none) ∧
    (∀ result, getLatestChartVersions resolve charts = some result →
      ∀ c ∈ charts, ∃ vs latest, resolve c.repository = some vs ∧
        mapGet vs c.name = some latest ∧ mapGet result c = some latest) := by
  obtain ⟨final, hf, hfinal⟩ := fetchLoop_all_resolve resolve charts hres
  unfold getLatestChartVersions
  rw [hf]
  simp only
  refine ⟨?_, ?_⟩
  · rw [lookupLoop_none_iff]
    constructor
    · rintro ⟨c, hc, h1⟩
      obtain ⟨vs, hvs⟩ := Option.isSome_iff_exists.1 (hres c hc)
      rw [hfinal c hc, hvs] at h1
      exact ⟨c, hc, vs, hvs, by simpa using h1⟩
    · rintro ⟨c, hc, vs, hvs, h1⟩
      exact ⟨c, hc, by rw [hfinal c hc, hvs]; simpa using h1⟩
  · intro result hr c hc
    obtain ⟨vs, hvs⟩ := Option.isSome_iff_exists.1 (hres c hc)
    have h1 := lookupLoop_some final charts [] result hr c
    rw [if_pos hc, hfinal c hc, hvs] at h1
    simp only [Option.some_bind] at h1
    cases hn : mapGet vs c.name with
    | none =>
      exfalso
      have h2 : lookupLoop final charts [] = none :=
        (lookupLoop_none_iff final charts []).2
          ⟨c, hc, by rw [hfinal c hc, hvs]; simpa using hn⟩
      rw [h2] at hr
      cases hr
    | some latest =>
      exact ⟨vs, latest, hvs, hn, by rw [h1, hn]⟩

/-- Witness for C15: one reference to `app` and a resolver reporting 1.1.0. -/
theorem getLatestChartVersions_lookup_witness :
    (∀ c ∈ [appChart], (appResolver c.repository).isSome = true) ∧
    getLatestChartVersions appResolver [appChart] = some [(appChart, "1.1.0".toList)] ∧
    (getLatestChartVersions appResolver [appChart] = none ↔
      ∃ c ∈ [appChart], ∃ vs, appResolver c.repository = some vs ∧
        mapGet vs c.name = none) :=
  ⟨by decide, by decide,
    (getLatestChartVersions_lookup appResolver [appChart] (by decide)).1⟩

theorem mem_distinctInOrder (l : List Str) (x : Str) : x ∈ distinctInOrder l ↔ x ∈ l := by
  induction l with
  | nil => simp [distinctInOrder]
  | cons a as ih =>
    simp only [distinctInOrder, List.mem_cons, List.mem_filter, ih, decide_eq_true_eq]
    constructor
    · rintro (h | ⟨h, _⟩)
      · exact Or.inl h
      · exact Or.inr h
    · intro h
      by_cases he : x = a
      · exact Or.inl he
      · rcases h with h | h
        · exact absurd h he
        · exact Or.inr ⟨h, he⟩

theorem distinctInOrder_nodup (l : List Str) : (distinctInOrder l).Nodup := by
  induction l with
  | nil => simp [distinctInOrder]
  | cons a as ih =>
    simp only [distinctInOrder, List.nodup_cons, List.mem_filter, decide_eq_true_eq, not_and,
      not_not]
    exact ⟨fun _ => trivial, ih.filter _⟩

theorem callsUntilFailure_all (resolve : Str → Option (GoMap Str Str)) (l : List Str)
    (h : ∀ x ∈ l, (resolve x).isSome = true) : callsUntilFailure resolve l = l := by
  induction l with
  | nil => rfl
  | cons a as ih =>
    obtain ⟨vs, hvs⟩ := Option.isSome_iff_exists.1 (h a (List.mem_cons_self _ _))
    simp only [callsUntilFailure, hvs, ih (fun x hx => h x (List.mem_cons_of_mem _ hx))]

theorem callsUntilFailure_cut (resolve : Str → Option (GoMap Str Str))
    (pre post : List Str) (u : Str)
    (h : ∀ x ∈ pre, (resolve x).isSome = true) (hu : resolve u = none) :
    callsUntilFailure resolve (pre ++ u :: post) = pre ++ [u] := by
  induction pre with
  | nil => simp [callsUntilFailure, hu]
  | cons a as ih =>
    obtain ⟨vs, hvs⟩ := Option.isSome_iff_exists.1 (h a (List.mem_cons_self _ _))
    have ih' := ih (fun x hx => h x (List.mem_cons_of_mem _ hx))
    rw [List.cons_append, callsUntilFailure, hvs]
    simp only [ih', List.cons_append]

/-- C16: `getLatestChartVersions` calls the resolver on the distinct repository
URLs of the references, each at most once and in order of first occurrence,
stopping after the first call that fails: when every fetch succeeds the calls
are exactly the list of distinct URLs, and when the fetch of a URL fails the
calls end with that URL and the whole call fails. -/
theorem getLatestChartVersions_fetch_once (resolve : Str → Option (GoMap Str Str))
    (charts : List chart) :
    (distinctInOrder (charts.map (fun c => c.repository))).Nodup ∧
    (∀ u, u ∈ distinctInOrder (charts.map (fun c => c.repository)) ↔
      ∃ c ∈ charts, c.repository = u) ∧
    (resolverCalls resolve charts).Nodup ∧
    ((∀ c ∈ charts, (resolve c.repository).isSome = true) →
      resolverCalls resolve charts = distinctInOrder (charts.map (fun c => c.repository))) ∧
    (∀ pre u post, distinctInOrder (charts.map (fun c => c.repository)) = pre ++ u :: post →
      (∀ x ∈ pre, (resolve x).isSome = true) → resolve u = none →
      resolverCalls resolve charts = pre ++ [u] ∧
        getLatestChartVersions resolve charts = none) := by
  have hcalls : resolverCalls resolve charts =
      callsUntilFailure resolve (distinctInOrder (charts.map (fun c => c.repository))) := by
    unfold resolverCalls
    rw [fetchLoop_calls]
    simp [mapGet]
  have hmem : ∀ u, u ∈ distinctInOrder (charts.map (fun c => c.repository)) ↔
      ∃ c ∈ charts, c.repository = u := by
    intro u
    rw [mem_distinctInOrder, List.mem_map]
  have hsub : ∀ l : List Str, (callsUntilFailure resolve l).Sublist l := by
    intro l
    induction l with
    | nil => exact List.Sublist.refl _
    | cons a as ih =>
      unfold callsUntilFailure
      cases resolve a with
      | none => simp
      | some vs => exact ih.cons₂ a
  refine ⟨distinctInOrder_nodup _, hmem, ?_, ?_, ?_⟩
  · rw [hcalls]
    exact (distinctInOrder_nodup _).sublist (hsub _)
  · intro h
    rw [hcalls]
    apply callsUntilFailure_all
    intro x hx
    obtain ⟨c, hc, rfl⟩ := (hmem x).1 hx
    exact h c hc
  · intro pre u post hd hpre hu
    refine ⟨by rw [hcalls, hd, callsUntilFailure_cut resolve pre post u hpre hu], ?_⟩
    obtain ⟨c, hc, hcu⟩ := (hmem u).1 (by rw [hd]; simp)
    have hnone : (fetchLoop resolve charts [] []).2 = none :=
      (fetchLoop_none_iff resolve charts [] []).2 ⟨c, hc, rfl, by rw [hcu, hu]⟩
    simp [getLatestChartVersions, hnone]

/-- Witness for C16: with all fetches succeeding, three references to two
repositories give two calls; with the second repository failing, the third one
is never fetched. -/
theorem getLatestChartVersions_fetch_once_witness :
    (∀ c ∈ [appChart, otherChart, appChart], (appResolver c.repository).isSome = true) ∧
    resolverCalls appResolver [appChart, otherChart, appChart] =
      ["https://example.test/charts".toList, "https://other.test".toList] ∧
    resolverCalls flakyResolver [appChart, downChart, appChart, otherChart] =
      ["https://example.test/charts".toList] ++ ["https://down.test".toList] ∧
    getLatestChartVersions flakyResolver [appChart, downChart, appChart, otherChart] = none :=
  ⟨by decide,
    ((getLatestChartVersions_fetch_once appResolver
      [appChart, otherChart, appChart]).2.2.2.1 (by decide)).trans (by decide),
    ((getLatestChartVersions_fetch_once flakyResolver
      [appChart, downChart, appChart, otherChart]).2.2.2.2
        ["https://example.test/charts".toList] "https://down.test".toList
        ["https://other.test".toList] (by decide) (by decide) (by decide)).1,
    ((getLatestChartVersions_fetch_once flakyResolver
      [appChart, downChart, appChart, otherChart]).2.2.2.2
        ["https://example.test/charts".toList] "https://down.test".toList
        ["https://other.test".toList] (by decide) (by decide) (by decide)).2⟩

/-! ### The tree scanner -/

theorem scanFails_cons {F : Type} (join : Str → Str → Str)
    (read : Reader → F → Option (List chart)) (path name : Str) (node : FsNode F)
    (rest : FsEntries F) :
    scanFails join read path (FsEntries.cons name node rest) =
      ((hasLockedDirAt node ||
        (manifestFilesAt join (join path name) name node).any
          (fun m => (manifestOutput read m).isNone)) ||
        scanFails join read path rest) := by
  simp only [scanFails, hasLockedDir, manifestFiles, List.any_append]
  generalize hasLockedDirAt node = a
  generalize hasLockedDir rest = b
  generalize (manifestFilesAt join (join path name) name node).any
    (fun m => (manifestOutput read m).isNone) = c
  generalize (manifestFiles join path rest).any
    (fun m => (manifestOutput read m).isNone) = d
  cases a <;> cases b <;> cases c <;> cases d <;> rfl

theorem scanOutput_cons {F : Type} (join : Str → Str → Str)
    (read : Reader → F → Option (List chart)) (path name : Str) (node : FsNode F)
    (rest : FsEntries F) :
    scanOutput join read path (FsEntries.cons name node rest) =
      (manifestFilesAt join (join path name) name node).flatMap
          (fun m => (manifestOutput read m).getD []) ++
        scanOutput join read path rest := by
  simp only [scanOutput, manifestFiles, List.flatMap_append]

theorem getChartsLoop_spec {F : Type} (join : Str → Str → Str)
    (read : Reader → F → Option (List chart)) (entries : FsEntries F) :
    ∀ (path : Str) (acc : List chart),
      getChartsLoop join read path entries acc =
        if scanFails join read path entries = true then none
        else some (acc ++ scanOutput join read path entries) := by
  refine FsEntries.rec
    (motive_1 := fun node => ∀ es, node = FsNode.dir es → ∀ (path : Str) (acc : List chart),
      getChartsLoop join read path es acc =
        if scanFails join read path es = true then none
        else some (acc ++ scanOutput join read path es))
    (motive_2 := fun es => ∀ (path : Str) (acc : List chart),
      getChartsLoop join read path es acc =
        if scanFails join read path es = true then none
        else some (acc ++ scanOutput join read path es))
    ?_ ?_ ?_ ?_ ?_ ?_ entries
  · intro contents es h
    cases h
  · intro es h
    cases h
  · intro es ih es2 h
    cases h
    exact ih
  · intro es h
    cases h
  · intro path acc
    simp [getChartsLoop, scanFails, scanOutput, hasLockedDir, manifestFiles]
  · intro name node rest ihn ihr path acc
    rw [scanFails_cons, scanOutput_cons]
    cases node with
    | dir es =>
      rw [getChartsLoop, getCharts, ihn es rfl (join path name) []]
      have e1 : (hasLockedDirAt (FsNode.dir es) ||
          (manifestFilesAt join (join path name) name (FsNode.dir es)).any
            (fun m => (manifestOutput read m).isNone)) =
          scanFails join read (join path name) es := by
        simp only [hasLockedDirAt, manifestFilesAt, scanFails]
      have e2 : (manifestFilesAt join (join path name) name (FsNode.dir es)).flatMap
          (fun m => (manifestOutput read m).getD []) =
          scanOutput join read (join path name) es := by
        simp only [manifestFilesAt, scanOutput]
      rw [e1, e2]
      cases h1 : scanFails join read (join path name) es with
      | true => simp
      | false =>
        simp only [Bool.false_eq_true, if_false, List.nil_append, Bool.false_or]
        rw [ihr, List.append_assoc]
    | lockedDir =>
      rw [getChartsLoop]
      simp [hasLockedDirAt]
    | file contents =>
      rw [getChartsLoop]
      simp only [hasLockedDirAt, manifestFilesAt, Bool.false_or]
      cases hd : dispatch name with
      | none =>
        simp only [List.any_nil, Bool.false_or, List.flatMap_nil, List.nil_append]
        exact ihr path acc
      | some reader =>
        simp only [List.any_cons, List.any_nil, Bool.or_false, List.flatMap_cons,
          List.flatMap_nil, List.append_nil]
        cases hr : read reader contents with
        | none => simp [manifestOutput, hr]
        | some cs =>
          simp only [manifestOutput, hr, Option.map_some', Option.isNone_some,
            Bool.false_or, Option.getD_some]
          rw [ihr, List.append_assoc]
          rfl
    | lockedFile =>
      rw [getChartsLoop]
      simp only [hasLockedDirAt, manifestFilesAt, Bool.false_or]
      cases hd : dispatch name with
      | none =>
        simp only [List.any_nil, Bool.false_or, List.flatMap_nil, List.nil_append]
        exact ihr path acc
      | some reader => simp [manifestOutput]

/-- C17: on a directory that can be listed, when `getCharts` succeeds its
result is the concatenation, in listing order with subdirectories recursed in
place, of the extractor output of each recognized manifest file, every
reference carrying the full path of its file and its other fields unchanged;
`getCharts` fails exactly when some directory cannot be listed, some
recognized file does not open or some extractor fails, and it fails on a
directory that cannot be listed. -/
theorem getCharts_scan {F : Type} (join : Str → Str → Str)
    (read : Reader → F → Option (List chart)) (path : Str) (entries : FsEntries F) :
    (∀ result, getCharts join read path (FsNode.dir entries) = some result →
      result = (manifestFiles join path entries).flatMap
        (fun m => (manifestOutput read m).getD [])) ∧
    (getCharts join read path (FsNode.dir entries) = none ↔
      hasLockedDir entries = true ∨
        ∃ m ∈ manifestFiles join path entries, manifestOutput read m = none) ∧
    getCharts join read path (FsNode.lockedDir : FsNode F) = none := by
  have h := getChartsLoop_spec join read entries path []
  have hf : scanFails join read path entries = true ↔
      (hasLockedDir entries = true ∨
        ∃ m ∈ manifestFiles join path entries, manifestOutput read m = none) := by
    simp only [scanFails, Bool.or_eq_true, List.any_eq_true, Option.isNone_iff_eq_none]
  refine ⟨?_, ?_, rfl⟩
  · intro result hr
    rw [getCharts, h] at hr
    by_cases hs : scanFails join read path entries = true
    · rw [if_pos hs] at hr
      cases hr
    · rw [if_neg hs] at hr
      simp only [List.nil_append, Option.some.injEq] at hr
      rw [← hr]
      rfl
  · rw [getCharts, h, ← hf]
    by_cases hs : scanFails join read path entries = true
    · simp [hs]
    · simp [hs]

/-- Witness for C17: a tree with an unopenable `README.md`, a subdirectory
holding a `Chart.yaml`, and a `devspace.yaml`; the scan succeeds and returns
the one dependency stamped with `/work/charts/Chart.yaml`. -/
theorem getCharts_scan_witness :
    getCharts joinPath runReader "/work".toList (FsNode.dir nestedTree) =
      some [{ path := "/work/charts/Chart.yaml".toList,
              repository := "https://example.test/charts".toList,
              name := "app".toList, version := "1.0.0".toList }] ∧
    [{ path := "/work/charts/Chart.yaml".toList,
       repository := "https://example.test/charts".toList,
       name := "app".toList, version := "1.0.0".toList }] =
      (manifestFiles joinPath "/work".toList nestedTree).flatMap
        (fun m => (manifestOutput runReader m).getD []) :=
  ⟨by decide,
    (getCharts_scan joinPath runReader "/work".toList nestedTree).1 _ (by decide)⟩

/-! ### Top-level reporting -/

theorem sprintf_report (c : chart) (latestVersion : Str) :
    sprintf "%s: %s %s %s -> %s\n".toList
        [c.path, c.repository, c.name, c.version, latestVersion] =
      reportLine c latestVersion ++ "\n".toList := by
  simp [sprintf, reportLine]

/-- C18: the report has exactly one text per resolved reference whose declared
version string differs from the resolved latest version string, and that text
is the line `<path>: <repository> <name> <declared> -> <latest>` followed by a
newline; declared "1.2" against latest "1.2.0" is reported; and a tree with one
`Chart.yaml` dependency (https://example.test/charts, app, 1.0.0) with latest
1.1.0 yields exactly one line. -/
theorem reportLoop_lines (latestChartVersions : GoMap chart Str) :
    reportLoop latestChartVersions =
      (latestChartVersions.filter (fun p => decide (p.1.version ≠ p.2))).map
        (fun p => reportLine p.1 p.2 ++ "\n".toList) ∧
    reportLoop [(shortVersionChart, "1.2.0".toList)] =
      ["/work/Chart.yaml: https://example.test/charts app 1.2 -> 1.2.0\n".toList] ∧
    reportLoop [(appChart, "1.0.0".toList)] = [] ∧
    mainOutput joinPath runReader appResolver "/work".toList appTree =
      some ["/work/Chart.yaml: https://example.test/charts app 1.0.0 -> 1.1.0\n".toList] := by
  refine ⟨?_, by decide, by decide, by decide⟩
  induction latestChartVersions with
  | nil => rfl
  | cons p rest ih =>
    obtain ⟨c, latestVersion⟩ := p
    unfold reportLoop
    by_cases h : c.version = latestVersion
    · simp [h, ih]
    · have hd : decide (c.version ≠ latestVersion) = true := decide_eq_true h
      rw [if_pos h, List.filter_cons, ih, sprintf_report]
      simp only [hd, if_true, List.map_cons]

/-! ### Template stripping -/

theorem matchEnd_length (x rest : Str) (h : matchEnd x = some rest) :
    rest.length < x.length := by
  induction x with
  | nil => simp [matchEnd] at h
  | cons c cs ih =>
    unfold matchEnd at h
    by_cases h1 : c = '}' ∧ cs.head? = some '}'
    · rw [if_pos h1] at h
      simp only [Option.some.injEq] at h
      subst h
      simp only [List.length_tail, List.length_cons]
      omega
    · rw [if_neg h1] at h
      by_cases h2 : c = '\n'
      · rw [if_pos h2] at h
        cases h
      · rw [if_neg h2] at h
        have := ih h
        simp only [List.length_cons]
        omega

theorem matchAt_length (s rest : Str) (h : matchAt s = some rest) :
    rest.length < s.length := by
  unfold matchAt at h
  split at h
  · rename_i c d x
    by_cases h1 : c = '{' ∧ d = '{'
    · rw [if_pos h1] at h
      have := matchEnd_length x rest h
      simp only [List.length_cons]
      omega
    · rw [if_neg h1] at h
      cases h
  · cases h

theorem stripLoop_fuel (n : Nat) (s : Str) (h : s.length ≤ n) :
    stripLoop n s = stripLoop s.length s := by
  induction n using Nat.strong_induction_on generalizing s with
  | _ n ih =>
    cases s with
    | nil => cases n <;> rfl
    | cons c cs =>
      cases n with
      | zero => simp at h
      | succ m =>
        simp only [List.length_cons] at h ⊢
        unfold stripLoop
        cases hm : matchAt (c :: cs) with
        | none =>
          simp only
          rw [ih m (Nat.lt_succ_self m) cs (by omega)]
        | some rest =>
          simp only
          have hl := matchAt_length (c :: cs) rest hm
          simp only [List.length_cons] at hl
          rw [ih m (Nat.lt_succ_self m) rest (by omega),
            ih cs.length (by omega) rest (by omega)]

theorem stripTemplates_nil : stripTemplates [] = [] := rfl

theorem stripTemplates_cons (c : Char) (cs : Str) :
    stripTemplates (c :: cs) =
      match matchAt (c :: cs) with
      | some rest => stripTemplates rest
      | none => c :: stripTemplates cs := by
  unfold stripTemplates
  simp only [List.length_cons]
  rw [stripLoop]
  cases hm : matchAt (c :: cs) with
  | none => rfl
  | some rest =>
    simp only
    have hl := matchAt_length (c :: cs) rest hm
    simp only [List.length_cons] at hl
    exact stripLoop_fuel cs.length rest (by omega)

theorem matchEnd_cons_plain (c : Char) (y : Str) (h1 : c ≠ '}') (h2 : c ≠ '\n') :
    matchEnd (c :: y) = matchEnd y := by
  rw [matchEnd]
  simp [h1, h2]

theorem matchAt_some_matchEnd (r rest : Str) (h : matchAt r = some rest) :
    matchEnd r = some rest := by
  unfold matchAt at h
  split at h
  · rename_i c d x
    by_cases h1 : c = '{' ∧ d = '{'
    · rw [if_pos h1] at h
      obtain ⟨rfl, rfl⟩ := h1
      rw [matchEnd_cons_plain '{' _ (by decide) (by decide),
        matchEnd_cons_plain '{' _ (by decide) (by decide)]
      exact h
    · rw [if_neg h1] at h
      cases h
  · cases h

theorem matchAt_none_of_matchEnd (r : Str) (h : matchEnd r = none) : matchAt r = none := by
  cases hm : matchAt r with
  | none => rfl
  | some rest =>
    rw [matchAt_some_matchEnd r rest hm] at h
    cases h

theorem stripTemplates_cons_none (c : Char) (cs : Str) (h : matchAt (c :: cs) = none) :
    stripTemplates (c :: cs) = c :: stripTemplates cs := by
  rw [stripTemplates_cons, h]

theorem head_stripTemplates (r : Str) (h : matchEnd r = none) :
    (stripTemplates r).head? = r.head? := by
  cases r with
  | nil => rfl
  | cons d r' =>
    rw [stripTemplates_cons_none d r' (matchAt_none_of_matchEnd _ h)]
    rfl

theorem matchEnd_stripTemplates (x : Str) (h : matchEnd x = none) :
    matchEnd (stripTemplates x) = none := by
  induction x with
  | nil => rfl
  | cons c r ih =>
    rw [stripTemplates_cons_none c r (matchAt_none_of_matchEnd _ h)]
    rw [matchEnd] at h ⊢
    by_cases h1 : c = '}' ∧ r.head? = some '}'
    · rw [if_pos h1] at h
      cases h
    · rw [if_neg h1] at h
      by_cases h2 : c = '\n'
      · have h3 : ¬ (c = '}' ∧ (stripTemplates r).head? = some '}') := by
          rintro ⟨hc, _⟩
          rw [hc] at h2
          exact absurd h2 (by decide)
        rw [if_neg h3, if_pos h2]
      · rw [if_neg h2] at h
        have h3 : ¬ (c = '}' ∧ (stripTemplates r).head? = some '}') := by
          rintro ⟨hc, hh⟩
          rw [head_stripTemplates r h] at hh
          exact h1 ⟨hc, hh⟩
        rw [if_neg h3, if_neg h2]
        exact ih h

theorem matchAt_cons_stripTemplates (c : Char) (cs : Str) (h : matchAt (c :: cs) = none) :
    matchAt (c :: stripTemplates cs) = none := by
  cases cs with
  | nil => rfl
  | cons d x =>
    by_cases hc : c = '{' ∧ d = '{'
    · have hx : matchEnd x = none := by
        simpa [matchAt, hc] using h
      have hcs : matchEnd (d :: x) = none := by
        rw [hc.2, matchEnd_cons_plain '{' _ (by decide) (by decide)]
        exact hx
      rw [stripTemplates_cons_none d x (matchAt_none_of_matchEnd _ hcs)]
      simp only [matchAt, hc, and_self, if_true]
      exact matchEnd_stripTemplates x hx
    · cases ht : stripTemplates (d :: x) with
      | nil => rfl
      | cons e y =>
        by_cases hd : matchAt (d :: x) = none
        · rw [stripTemplates_cons_none d x hd] at ht
          simp only [List.cons.injEq] at ht
          have hne : ¬ (c = '{' ∧ e = '{') := by
            rw [← ht.1]
            exact hc
          simp only [matchAt, hne, if_false]
        · have hd2 : d = '{' := by
            by_contra hne
            apply hd
            cases x with
            | nil => rfl
            | cons x0 xs => simp [matchAt, hne]
          have hc2 : c ≠ '{' := fun e => hc ⟨e, hd2⟩
          simp [matchAt, hc2]

theorem matchAt_stripTemplates_suffix (s : Str) :
    ∀ a t : Str, stripTemplates s = a ++ t → matchAt t = none := by
  suffices hmain : ∀ (n : Nat) (s : Str), s.length = n →
      ∀ a t : Str, stripTemplates s = a ++ t → matchAt t = none from hmain s.length s rfl
  intro n
  induction n using Nat.strong_induction_on with
  | _ n ih =>
    intro s hn a t hat
    cases s with
    | nil =>
      rw [stripTemplates_nil] at hat
      have ht : t = [] := (List.append_eq_nil.1 hat.symm).2
      rw [ht]
      rfl
    | cons c cs =>
      cases hm : matchAt (c :: cs) with
      | some rest =>
        rw [stripTemplates_cons, hm] at hat
        have hl := matchAt_length (c :: cs) rest hm
        exact ih rest.length (by rw [← hn]; exact hl) rest rfl a t hat
      | none =>
        rw [stripTemplates_cons_none c cs hm] at hat
        cases a with
        | nil =>
          rw [List.nil_append] at hat
          rw [← hat]
          exact matchAt_cons_stripTemplates c cs hm
        | cons a0 a' =>
          simp only [List.cons_append, List.cons.injEq] at hat
          have hl : cs.length < n := by
            rw [← hn]
            simp
          exact ih cs.length hl cs rfl a' t hat.2

theorem matchEnd_of_closing (w b : Str) (hw : '\n' ∉ w) :
    (matchEnd (w ++ ('}' :: '}' :: b))).isSome = true := by
  induction w with
  | nil => simp [matchEnd]
  | cons c w' ih =>
    have hc : c ≠ '\n' := fun e => hw (by simp [e])
    have hw' : '\n' ∉ w' := fun hm => hw (List.mem_cons_of_mem _ hm)
    rw [List.cons_append, matchEnd]
    by_cases h1 : c = '}' ∧ (w' ++ '}' :: '}' :: b).head? = some '}'
    · rw [if_pos h1]
      rfl
    · rw [if_neg h1, if_neg hc]
      exact ih hw'

theorem stripTemplates_of_clean (u : Str)
    (h : ∀ a t : Str, u = a ++ t → matchAt t = none) : stripTemplates u = u := by
  induction u with
  | nil => rfl
  | cons c cs ih =>
    rw [stripTemplates_cons_none c cs (h [] (c :: cs) rfl)]
    rw [ih (fun a t hat => h (c :: a) t (by rw [hat]; rfl))]

/-- C19: after the template-stripping step the text contains no substring that
begins with `{{`, ends with `}}` and has no line break in between, and
stripping a stripped text changes nothing. -/
theorem stripTemplates_idempotent (s : Str) :
    (∀ a w b : Str,
      stripTemplates s = a ++ ("\x7b\x7b".toList ++ w ++ "\x7d\x7d".toList) ++ b → '\n' ∈ w) ∧
    stripTemplates (stripTemplates s) = stripTemplates s := by
  refine ⟨?_, stripTemplates_of_clean _ (matchAt_stripTemplates_suffix s)⟩
  intro a w b h
  by_contra hw
  have h1 := matchAt_stripTemplates_suffix s a
    (("\x7b\x7b".toList ++ w ++ "\x7d\x7d".toList) ++ b) (by rw [h, List.append_assoc])
  have h2 := matchEnd_of_closing w b hw
  have h3 : matchAt (("\x7b\x7b".toList ++ w ++ "\x7d\x7d".toList) ++ b) =
      matchEnd (w ++ ('}' :: '}' :: b)) := by
    have e : ("\x7b\x7b".toList ++ w ++ "\x7d\x7d".toList) ++ b =
        '{' :: '{' :: (w ++ ('}' :: '}' :: b)) := by
      simp
    rw [e]
    simp [matchAt]
  rw [h3] at h1
  rw [h1] at h2
  cases h2

end HelmUpdateChecker
